import Mathlib

/-!
Verification of the pattern-matching mini-engine (AST.h, Nodes.h, Parser.cpp,
main.cpp) against its natural-language specification.

The engine is embedded shallowly:
* `ASTNode` mirrors the C++ node hierarchy (Nodes.h).
* `matchNode` mirrors the virtual `match` methods.  The `StarNode` loop of the
  C++ source is an unbounded `while`, so `matchNode` takes a fuel argument;
  `MRes.outOfFuel` means the fuel ran out before the source code would have
  returned, and `MRes.crash` models the null-pointer dereference that
  `GroupNode::match` performs when its sub-expression pointer is null.
* `parseExpr`, `parseTerm`, `parseFactor`, `parseGroup`, `parseCount`,
  `parseIgnoreCase`, `parsePattern` mirror Parser.cpp; the process-wide
  `static int groupCounter` is threaded explicitly as an `Int` argument and
  result (its initial value at the first compilation in a process is 1).
* `findMatchFrom` mirrors `findMatch` of main.cpp and `extractOutput` the
  output-group slicing that `main` performs.

Texts and patterns are `List Char`; machine `size_t`/`int` values are `Nat`
and `Int` (no overflow is relevant at the sizes the claims exercise).
-/

/-- `CaptureGroup` of AST.h: a half-open span into the input text. -/
structure CaptureGroup where
  startIndex : Nat
  endIndex : Nat
  valid : Bool
deriving DecidableEq

/-- `MatchContext` of AST.h: the mutable matching state. -/
structure MatchContext where
  input : List Char
  position : Nat
  captures : List (Option CaptureGroup)
  ignoreCase : Bool
deriving DecidableEq

/-- The node hierarchy of Nodes.h.  `group` keeps an `Option` body because
`parseGroup` can build a `GroupNode` whose sub-expression pointer is null
(for instance from the pattern `()`). -/
inductive ASTNode where
  | char (c : Char)
  | dot
  | seq (children : List ASTNode)
  | orN (lhs rhs : ASTNode)
  | group (expr : Option ASTNode) (groupIndex : Int)
  | star (expr : ASTNode)
  | count (expr : ASTNode) (n : Nat)
  | icase (expr : ASTNode)
  | output (groupIndex : Int)

/-- Outcome of one `match` call.  `crash` is the null dereference in
`GroupNode::match`; `outOfFuel` signals that the fuel bound was hit before
the C++ code would have returned. -/
inductive MRes where
  | ok (success : Bool) (ctx : MatchContext)
  | crash
  | outOfFuel
deriving DecidableEq

/-- Capture-table write of `GroupNode::match`: grow the table on demand,
then store the span; a negative index writes nothing. -/
def writeCapture (caps : List (Option CaptureGroup)) (idx : Int) (s e : Nat) :
    List (Option CaptureGroup) :=
  if 0 ≤ idx then
    let i := idx.toNat
    let caps1 := if caps.length ≤ i then caps ++ List.replicate (i + 1 - caps.length) none
      else caps
    caps1.set i (some ⟨s, e, true⟩)
  else caps

mutual

/-- Shallow embedding of the `match` methods of Nodes.h, fueled. -/
def matchNode : Nat → ASTNode → MatchContext → MRes
  | 0, _, _ => .outOfFuel
  | _ + 1, .char c, ctx =>
      if ctx.position < ctx.input.length then
        let inputChar := ctx.input.getD ctx.position (Char.ofNat 0)
        if ctx.ignoreCase then
          if inputChar.toLower = c.toLower then .ok true { ctx with position := ctx.position + 1 }
          else .ok false ctx
        else
          if inputChar = c then .ok true { ctx with position := ctx.position + 1 }
          else .ok false ctx
      else .ok false ctx
  | _ + 1, .dot, ctx =>
      if ctx.position < ctx.input.length then .ok true { ctx with position := ctx.position + 1 }
      else .ok false ctx
  | fuel + 1, .seq cs, ctx => seqLoop fuel cs ctx ctx.position
  | fuel + 1, .orN l r, ctx =>
      match matchNode fuel l ctx with
      | .ok true ctx1 => .ok true ctx1
      | .ok false ctx1 =>
          match matchNode fuel r { ctx1 with position := ctx.position } with
          | .ok true ctx2 => .ok true ctx2
          | .ok false ctx2 => .ok false ctx2
          | r2 => r2
      | r1 => r1
  | fuel + 1, .group oe idx, ctx =>
      match oe with
      | none => .crash
      | some e =>
        match matchNode fuel e ctx with
        | .ok true ctx1 =>
            .ok true { ctx1 with
              captures := writeCapture ctx1.captures idx ctx.position ctx1.position }
        | .ok false ctx1 => .ok false ctx1
        | r1 => r1
  | fuel + 1, .star e, ctx => starLoop fuel e ctx 0
  | fuel + 1, .count e n, ctx => countLoop fuel e n ctx ctx.position
  | fuel + 1, .icase e, ctx =>
      match matchNode fuel e { ctx with ignoreCase := true } with
      | .ok b ctx1 => .ok b { ctx1 with ignoreCase := ctx.ignoreCase }
      | r1 => r1
  | _ + 1, .output _, ctx => .ok true ctx
termination_by structural fuel _ _ => fuel

/-- The child loop of `SequenceNode::match`; `saved` is the checkpoint taken
at entry, restored (position only) when a child fails. -/
def seqLoop : Nat → List ASTNode → MatchContext → Nat → MRes
  | _, [], ctx, _ => .ok true ctx
  | 0, _ :: _, _, _ => .outOfFuel
  | fuel + 1, c :: cs, ctx, saved =>
      match matchNode fuel c ctx with
      | .ok true ctx1 => seqLoop fuel cs ctx1 saved
      | .ok false ctx1 => .ok false { ctx1 with position := saved }
      | r1 => r1
termination_by structural fuel _ _ _ => fuel

/-- The `while (true)` loop of `StarNode::match`; `cnt` counts completed
repetitions, and on the terminating failure the position is restored to the
start of that failing iteration. -/
def starLoop : Nat → ASTNode → MatchContext → Nat → MRes
  | 0, _, _, _ => .outOfFuel
  | fuel + 1, e, ctx, cnt =>
      match matchNode fuel e ctx with
      | .ok true ctx1 => starLoop fuel e ctx1 (cnt + 1)
      | .ok false ctx1 => .ok (decide (1 ≤ cnt)) { ctx1 with position := ctx.position }
      | r1 => r1
termination_by structural fuel _ _ _ => fuel

/-- The `for` loop of `CountNode::match`; any failure restores the checkpoint
`saved` taken at entry. -/
def countLoop : Nat → ASTNode → Nat → MatchContext → Nat → MRes
  | _, _, 0, ctx, _ => .ok true ctx
  | 0, _, _ + 1, _, _ => .outOfFuel
  | fuel + 1, e, n + 1, ctx, saved =>
      match matchNode fuel e ctx with
      | .ok true ctx1 => countLoop fuel e n ctx1 saved
      | .ok false ctx1 => .ok false { ctx1 with position := saved }
      | r1 => r1
termination_by structural fuel _ _ _ _ => fuel

end

/-- Result of the search driver `findMatch` of main.cpp.  `stuck` covers the
runs on which the embedded matcher reported `crash` or `outOfFuel`. -/
inductive SearchRes where
  | found (start : Nat) (captures : List (Option CaptureGroup))
  | noMatch
  | stuck
deriving DecidableEq

/-- Slot-0 fixup of `findMatch`: if the AST itself never wrote capture 0,
store the whole-match span there. -/
def fixSlotZero (caps : List (Option CaptureGroup)) (start finalPos : Nat) :
    List (Option CaptureGroup) :=
  if (caps.getD 0 none).isSome then caps else caps.set 0 (some ⟨start, finalPos, true⟩)

/-- The start-offset loop of `findMatch` (main.cpp), indexed by the number
`k` of start offsets still to try: at each offset a fresh `MatchContext`
with capture table `[none]` is built and the root is asked to match. -/
def searchLoop (fuel : Nat) (ast : ASTNode) (text : List Char) : Nat → Nat → SearchRes
  | _, 0 => .noMatch
  | start, k + 1 =>
      match matchNode fuel ast ⟨text, start, [none], false⟩ with
      | .ok true ctx1 => .found start (fixSlotZero ctx1.captures start ctx1.position)
      | .ok false _ => searchLoop fuel ast text (start + 1) k
      | _ => .stuck
termination_by structural _ k => k

/-- `findMatch` of main.cpp starting at offset `start`: the loop runs while
`start` is at most `text.length`, so it has `text.length + 1 - start`
offsets left to try. -/
def findMatchFrom (fuel : Nat) (ast : ASTNode) (text : List Char) (start : Nat) : SearchRes :=
  searchLoop fuel ast text start (text.length + 1 - start)

/-- Output-group slicing of main.cpp: out-of-range or absent slots produce
no output (while the match itself still counts as successful). -/
def extractOutput (text : List Char) (caps : List (Option CaptureGroup)) (outIdx : Int) :
    Option (List Char) :=
  if 0 ≤ outIdx ∧ outIdx.toNat < caps.length then
    match caps.getD outIdx.toNat none with
    | some cg => some ((text.drop cg.startIndex).take (cg.endIndex - cg.startIndex))
    | none => none
  else none

/-- `Cursor::current` of Parser.cpp (returns the NUL character at the end). -/
def curC (p : List Char) (pos : Nat) : Char := p.getD pos (Char.ofNat 0)

/-- The digit-scanning loops of `parseCount` and `parsePattern`. -/
def digitsFrom (p : List Char) (pos : Nat) : List Char :=
  (p.drop pos).takeWhile Char.isDigit

/-- `std::stoi` on a non-empty digit string (overflow is not modelled; the
claims only exercise small counts). -/
def digitsToNat (ds : List Char) : Nat :=
  ds.foldl (fun a c => a * 10 + (c.toNat - 48)) 0

/-- The special-character set `"+*().{}\\"` tested by `parseFactor`. -/
def isSpecialChar (c : Char) : Bool :=
  c = '+' || c = '*' || c = '(' || c = ')' || c = '.' || c = '{' || c = '}' || c = '\\'

/-- `parseCount` of Parser.cpp: a trailing `*` wraps the base in a
`StarNode`; a brace form wraps it in a `CountNode`; any other or malformed
suffix yields `none` — the cursor keeps whatever it consumed. -/
def parseCount (base : ASTNode) (p : List Char) (pos : Nat) : Option ASTNode × Nat :=
  if pos < p.length ∧ curC p pos = '*' then (some (.star base), pos + 1)
  else if pos < p.length ∧ curC p pos = '{' then
    let ds := digitsFrom p (pos + 1)
    let pos2 := pos + 1 + ds.length
    if pos2 < p.length ∧ curC p pos2 = '}' then
      if ds.isEmpty then (none, pos2 + 1)
      else (some (.count base (digitsToNat ds)), pos2 + 1)
    else (none, pos2)
  else (none, pos)

/-- `parseIgnoreCase` of Parser.cpp: a trailing backslash-I (or i) wraps the
base in an `IgnoreCaseNode`; otherwise the cursor is restored. -/
def parseIgnoreCase (base : ASTNode) (p : List Char) (pos : Nat) : Option ASTNode × Nat :=
  if pos < p.length ∧ curC p pos = '\\' then
    if pos + 1 < p.length ∧ (curC p (pos + 1) = 'I' ∨ curC p (pos + 1) = 'i') then
      (some (.icase base), pos + 2)
    else (none, pos)
  else (none, pos)

/-- The suffix-handling sequence that Parser.cpp repeats after each parsed
atom: try `parseCount`, keep the expansion if any, then try
`parseIgnoreCase`, keep the expansion if any. -/
def applySuffixes (base : ASTNode) (p : List Char) (pos : Nat) : ASTNode × Nat :=
  let r1 := parseCount base p pos
  let base1 := r1.1.getD base
  let r2 := parseIgnoreCase base1 p r1.2
  (r2.1.getD base1, r2.2)

/-- Result of one recursive-descent parse call: the produced node (or null),
the cursor position, and the group counter. -/
inductive PRes where
  | outOfFuel
  | done (ast : Option ASTNode) (pos : Nat) (cnt : Int)

mutual

/-- `parseExpr` of Parser.cpp: a term followed by `+`-separated terms. -/
def parseExpr : Nat → List Char → Nat → Int → PRes
  | 0, _, _, _ => .outOfFuel
  | fuel + 1, p, pos, cnt =>
      match parseTerm fuel p pos cnt with
      | .outOfFuel => .outOfFuel
      | .done none pos1 cnt1 => .done none pos1 cnt1
      | .done (some left) pos1 cnt1 => parseExprLoop fuel p pos1 cnt1 left
termination_by structural fuel _ _ _ => fuel

/-- The `while (matchChar '+')` loop of `parseExpr`, building a
left-associative `OrNode` chain. -/
def parseExprLoop : Nat → List Char → Nat → Int → ASTNode → PRes
  | 0, _, _, _, _ => .outOfFuel
  | fuel + 1, p, pos, cnt, left =>
      if pos < p.length ∧ curC p pos = '+' then
        match parseTerm fuel p (pos + 1) cnt with
        | .outOfFuel => .outOfFuel
        | .done none pos1 cnt1 => .done none pos1 cnt1
        | .done (some right) pos1 cnt1 => parseExprLoop fuel p pos1 cnt1 (.orN left right)
      else .done (some left) pos cnt
termination_by structural fuel _ _ _ _ => fuel

/-- `parseTerm` of Parser.cpp: collect factors into a `SequenceNode`;
an empty sequence is the null result. -/
def parseTerm : Nat → List Char → Nat → Int → PRes
  | 0, _, _, _ => .outOfFuel
  | fuel + 1, p, pos, cnt => parseTermLoop fuel p pos cnt []
termination_by structural fuel _ _ _ => fuel

/-- The factor-collection loop of `parseTerm` with its accumulated children. -/
def parseTermLoop : Nat → List Char → Nat → Int → List ASTNode → PRes
  | 0, _, _, _, _ => .outOfFuel
  | fuel + 1, p, pos, cnt, acc =>
      match parseFactor fuel p pos cnt with
      | .outOfFuel => .outOfFuel
      | .done none pos1 cnt1 =>
          if acc.isEmpty then .done none pos1 cnt1
          else .done (some (.seq acc)) pos1 cnt1
      | .done (some f) pos1 cnt1 => parseTermLoop fuel p pos1 cnt1 (acc ++ [f])
termination_by structural fuel _ _ _ _ => fuel

/-- `parseFactor` of Parser.cpp: a group, a dot, or a literal character,
each with optional quantifier and case-modifier suffixes. -/
def parseFactor : Nat → List Char → Nat → Int → PRes
  | 0, _, _, _ => .outOfFuel
  | fuel + 1, p, pos, cnt =>
      if pos < p.length ∧ curC p pos = '(' then parseGroup fuel p (pos + 1) cnt
      else if pos < p.length ∧ curC p pos = '.' then
        let r := applySuffixes .dot p (pos + 1)
        .done (some r.1) r.2 cnt
      else if pos < p.length ∧ isSpecialChar (curC p pos) = false then
        let r := applySuffixes (.char (curC p pos)) p (pos + 1)
        .done (some r.1) r.2 cnt
      else .done none pos cnt
termination_by structural fuel _ _ _ => fuel

/-- `parseGroup` of Parser.cpp: parse the inner expression (which may come
back null), require the closing parenthesis, assign the current group
counter and increment it, then try quantifier and case-modifier suffixes. -/
def parseGroup : Nat → List Char → Nat → Int → PRes
  | 0, _, _, _ => .outOfFuel
  | fuel + 1, p, pos, cnt =>
      match parseExpr fuel p pos cnt with
      | .outOfFuel => .outOfFuel
      | .done e pos1 cnt1 =>
          if pos1 < p.length ∧ curC p pos1 = ')' then
            let r := applySuffixes (.group e cnt1) p (pos1 + 1)
            .done (some r.1) r.2 (cnt1 + 1)
          else .done none pos1 cnt1
termination_by structural fuel _ _ _ => fuel

end

/-- Result of `parsePattern`: the AST (or null), the output-group index, and
the group counter after the compilation. -/
inductive PPRes where
  | outOfFuel
  | done (ast : Option ASTNode) (outIdx : Int) (cnt : Int)

/-- The trailing output-directive block of `parsePattern` (Parser.cpp lines
55-84): starting from `pos`, try to read backslash, O or o, an opening
brace, at least one digit, and a closing brace; on success return the
parsed number, otherwise restore the cursor and keep `outIdx`. -/
def outputBlock (p : List Char) (pos : Nat) (outIdx : Int) : Int × Nat :=
  if pos < p.length ∧ curC p pos = '\\' then
    if pos + 1 < p.length ∧ (curC p (pos + 1) = 'O' ∨ curC p (pos + 1) = 'o') then
      if pos + 2 < p.length ∧ curC p (pos + 2) = '{' then
        let ds := digitsFrom p (pos + 3)
        let pos4 := pos + 3 + ds.length
        if ds.isEmpty = false ∧ pos4 < p.length ∧ curC p pos4 = '}' then
          ((digitsToNat ds : Nat), pos4 + 1)
        else (outIdx, pos)
      else (outIdx, pos)
    else (outIdx, pos)
  else (outIdx, pos)

/-- `parsePattern` of Parser.cpp, with the `outputGroupIndex` reference
initialized to 0 as main.cpp does before the call. -/
def parsePattern (fuel : Nat) (p : List Char) (cnt : Int) : PPRes :=
  match parseExpr fuel p 0 cnt with
  | .outOfFuel => .outOfFuel
  | .done ast pos1 cnt1 => .done ast (outputBlock p pos1 0).1 cnt1

/-- Frame-and-position contract of one match call: the input text and the
case flag come back unchanged, success only moves the position forward (and
never past the end of the input unless it never moved), and failure leaves
the position at the checkpoint `saved`. -/
def MatchOk (ctx ctx1 : MatchContext) (saved : Nat) (b : Bool) : Prop :=
  ctx1.input = ctx.input ∧ ctx1.ignoreCase = ctx.ignoreCase ∧
  (b = true → ctx.position ≤ ctx1.position ∧
    (ctx1.position = ctx.position ∨ ctx1.position ≤ ctx.input.length)) ∧
  (b = false → ctx1.position = saved)

lemma matchOk_comp {ctx ctx1 ctx2 : MatchContext} {s1 saved : Nat} {b : Bool}
    (h1 : MatchOk ctx ctx1 s1 true) (h2 : MatchOk ctx1 ctx2 saved b) :
    MatchOk ctx ctx2 saved b := by
  obtain ⟨hi1, hf1, ht1, _⟩ := h1
  obtain ⟨hi2, hf2, ht2, hb2⟩ := h2
  refine ⟨hi2.trans hi1, hf2.trans hf1, ?_, hb2⟩
  intro hb
  obtain ⟨hle2, hor2⟩ := ht2 hb
  obtain ⟨hle1, hor1⟩ := ht1 rfl
  refine ⟨hle1.trans hle2, ?_⟩
  rcases hor2 with h | h
  · rw [h]
    exact hor1
  · right
    rw [hi1] at h
    exact h

lemma matchOk_retarget {ctx ctx1 : MatchContext} {s s1 : Nat}
    (h : MatchOk ctx ctx1 s true) : MatchOk ctx ctx1 s1 true :=
  ⟨h.1, h.2.1, h.2.2.1, by simp⟩

lemma matchOk_id_true (ctx : MatchContext) (saved : Nat) : MatchOk ctx ctx saved true :=
  ⟨rfl, rfl, fun _ => ⟨Nat.le_refl _, Or.inl rfl⟩, by simp⟩

lemma matchOk_id_false (ctx : MatchContext) : MatchOk ctx ctx ctx.position false :=
  ⟨rfl, rfl, by simp, fun _ => rfl⟩

lemma matchOk_adv (ctx : MatchContext) (saved : Nat) (h : ctx.position < ctx.input.length) :
    MatchOk ctx { ctx with position := ctx.position + 1 } saved true :=
  ⟨rfl, rfl, fun _ => ⟨Nat.le_succ _, Or.inr h⟩, by simp⟩

/-- Every `match` method of Nodes.h obeys the frame-and-position contract:
failure restores the position checkpoint exactly, success only advances. -/
theorem matchInvAll : ∀ fuel : Nat,
    (∀ a ctx b ctx1, matchNode fuel a ctx = .ok b ctx1 → MatchOk ctx ctx1 ctx.position b) ∧
    (∀ cs ctx saved b ctx1, seqLoop fuel cs ctx saved = .ok b ctx1 → MatchOk ctx ctx1 saved b) ∧
    (∀ e ctx k b ctx1, starLoop fuel e ctx k = .ok b ctx1 →
      MatchOk ctx ctx1 ctx.position b ∧ (1 ≤ k → b = true)) ∧
    (∀ e n ctx saved b ctx1, countLoop fuel e n ctx saved = .ok b ctx1 →
      MatchOk ctx ctx1 saved b) := by
  intro fuel
  induction fuel with
  | zero =>
      refine ⟨?_, ?_, ?_, ?_⟩
      · intro a ctx b ctx1 h
        simp only [matchNode] at h
        exact MRes.noConfusion h
      · intro cs ctx saved b ctx1 h
        cases cs with
        | nil =>
            simp only [seqLoop] at h
            injection h with hb hc
            subst hb; subst hc
            exact matchOk_id_true ctx saved
        | cons c cs =>
            simp only [seqLoop] at h
            exact MRes.noConfusion h
      · intro e ctx k b ctx1 h
        simp only [starLoop] at h
        exact MRes.noConfusion h
      · intro e n ctx saved b ctx1 h
        cases n with
        | zero =>
            simp only [countLoop] at h
            injection h with hb hc
            subst hb; subst hc
            exact matchOk_id_true ctx saved
        | succ n =>
            simp only [countLoop] at h
            exact MRes.noConfusion h
  | succ f ih =>
      obtain ⟨ihm, ihs, ihst, ihc⟩ := ih
      refine ⟨?_, ?_, ?_, ?_⟩
      · intro a ctx b ctx1 h
        cases a with
        | char c =>
            simp only [matchNode] at h
            split at h
            · split at h
              · split at h
                · injection h with hb hc
                  subst hb; subst hc
                  exact matchOk_adv ctx ctx.position ‹_›
                · injection h with hb hc
                  subst hb; subst hc
                  exact matchOk_id_false ctx
              · split at h
                · injection h with hb hc
                  subst hb; subst hc
                  exact matchOk_adv ctx ctx.position ‹_›
                · injection h with hb hc
                  subst hb; subst hc
                  exact matchOk_id_false ctx
            · injection h with hb hc
              subst hb; subst hc
              exact matchOk_id_false ctx
        | dot =>
            simp only [matchNode] at h
            split at h
            · injection h with hb hc
              subst hb; subst hc
              exact matchOk_adv ctx ctx.position ‹_›
            · injection h with hb hc
              subst hb; subst hc
              exact matchOk_id_false ctx
        | seq cs =>
            simp only [matchNode] at h
            exact ihs cs ctx ctx.position b ctx1 h
        | orN l r =>
            simp only [matchNode] at h
            cases hl : matchNode f l ctx with
            | ok bl ctxl =>
                rw [hl] at h
                cases bl with
                | true =>
                    simp only at h
                    injection h with hb hc
                    subst hb; subst hc
                    exact ihm l ctx true ctxl hl
                | false =>
                    simp only at h
                    have invl := ihm l ctx false ctxl hl
                    cases hr : matchNode f r { ctxl with position := ctx.position } with
                    | ok br ctxr =>
                        rw [hr] at h
                        have invr := ihm r { ctxl with position := ctx.position } br ctxr hr
                        cases br with
                        | true =>
                            simp only at h
                            injection h with hb hc
                            subst hb; subst hc
                            obtain ⟨hi2, hf2, ht2, _⟩ := invr
                            obtain ⟨hi1, hf1, _, _⟩ := invl
                            refine ⟨hi2.trans hi1, hf2.trans hf1, ?_, by simp⟩
                            intro _
                            obtain ⟨hle, hor⟩ := ht2 rfl
                            exact ⟨hle, by simpa [hi1] using hor⟩
                        | false =>
                            simp only at h
                            injection h with hb hc
                            subst hb; subst hc
                            obtain ⟨hi2, hf2, _, hb2⟩ := invr
                            obtain ⟨hi1, hf1, _, _⟩ := invl
                            exact ⟨hi2.trans hi1, hf2.trans hf1, by simp, fun _ => hb2 rfl⟩
                    | crash =>
                        rw [hr] at h
                        exact MRes.noConfusion h
                    | outOfFuel =>
                        rw [hr] at h
                        exact MRes.noConfusion h
            | crash =>
                rw [hl] at h
                exact MRes.noConfusion h
            | outOfFuel =>
                rw [hl] at h
                exact MRes.noConfusion h
        | group oe idx =>
            cases oe with
            | none =>
                simp only [matchNode] at h
                exact MRes.noConfusion h
            | some e =>
                simp only [matchNode] at h
                cases he : matchNode f e ctx with
                | ok be ctxe =>
                    rw [he] at h
                    have inve := ihm e ctx be ctxe he
                    cases be with
                    | true =>
                        simp only at h
                        injection h with hb hc
                        subst hb; subst hc
                        obtain ⟨hi, hf, ht, _⟩ := inve
                        exact ⟨hi, hf, fun _ => ht rfl, by simp⟩
                    | false =>
                        simp only at h
                        injection h with hb hc
                        subst hb; subst hc
                        exact inve
                | crash =>
                    rw [he] at h
                    exact MRes.noConfusion h
                | outOfFuel =>
                    rw [he] at h
                    exact MRes.noConfusion h
        | star e =>
            simp only [matchNode] at h
            exact (ihst e ctx 0 b ctx1 h).1
        | count e n =>
            simp only [matchNode] at h
            exact ihc e n ctx ctx.position b ctx1 h
        | icase e =>
            simp only [matchNode] at h
            cases he : matchNode f e { ctx with ignoreCase := true } with
            | ok be ctxe =>
                rw [he] at h
                simp only at h
                injection h with hb hc
                subst hb; subst hc
                have inve := ihm e { ctx with ignoreCase := true } be ctxe he
                obtain ⟨hi, _, ht, hb2⟩ := inve
                exact ⟨hi, rfl, fun hb => by simpa using ht hb, fun hb => by simpa using hb2 hb⟩
            | crash =>
                rw [he] at h
                exact MRes.noConfusion h
            | outOfFuel =>
                rw [he] at h
                exact MRes.noConfusion h
        | output idx =>
            simp only [matchNode] at h
            injection h with hb hc
            subst hb; subst hc
            exact matchOk_id_true ctx ctx.position
      · intro cs ctx saved b ctx1 h
        cases cs with
        | nil =>
            simp only [seqLoop] at h
            injection h with hb hc
            subst hb; subst hc
            exact matchOk_id_true ctx saved
        | cons c cs =>
            simp only [seqLoop] at h
            cases hc1 : matchNode f c ctx with
            | ok bc ctxc =>
                rw [hc1] at h
                have invc := ihm c ctx bc ctxc hc1
                cases bc with
                | true =>
                    simp only at h
                    exact matchOk_comp invc (ihs cs ctxc saved b ctx1 h)
                | false =>
                    simp only at h
                    injection h with hb hc
                    subst hb; subst hc
                    obtain ⟨hi, hf, _, _⟩ := invc
                    exact ⟨hi, hf, by simp, fun _ => rfl⟩
            | crash =>
                rw [hc1] at h
                exact MRes.noConfusion h
            | outOfFuel =>
                rw [hc1] at h
                exact MRes.noConfusion h
      · intro e ctx k b ctx1 h
        simp only [starLoop] at h
        cases he : matchNode f e ctx with
        | ok be ctxe =>
            rw [he] at h
            have inve := ihm e ctx be ctxe he
            cases be with
            | true =>
                simp only at h
                have ihres := ihst e ctxe (k + 1) b ctx1 h
                have hb : b = true := ihres.2 (Nat.le_add_left 1 k)
                subst hb
                exact ⟨matchOk_comp inve (matchOk_retarget ihres.1), fun _ => rfl⟩
            | false =>
                simp only at h
                injection h with hb hc
                subst hb; subst hc
                obtain ⟨hi, hf, _, _⟩ := inve
                refine ⟨⟨hi, hf, fun _ => ⟨Nat.le_refl _, Or.inl rfl⟩, fun _ => rfl⟩, ?_⟩
                intro hk
                exact decide_eq_true hk
        | crash =>
            rw [he] at h
            exact MRes.noConfusion h
        | outOfFuel =>
            rw [he] at h
            exact MRes.noConfusion h
      · intro e n ctx saved b ctx1 h
        cases n with
        | zero =>
            simp only [countLoop] at h
            injection h with hb hc
            subst hb; subst hc
            exact matchOk_id_true ctx saved
        | succ n =>
            simp only [countLoop] at h
            cases he : matchNode f e ctx with
            | ok be ctxe =>
                rw [he] at h
                have inve := ihm e ctx be ctxe he
                cases be with
                | true =>
                    simp only at h
                    exact matchOk_comp inve (ihc e n ctxe saved b ctx1 h)
                | false =>
                    simp only at h
                    injection h with hb hc
                    subst hb; subst hc
                    obtain ⟨hi, hf, _, _⟩ := inve
                    exact ⟨hi, hf, by simp, fun _ => rfl⟩
            | crash =>
                rw [he] at h
                exact MRes.noConfusion h
            | outOfFuel =>
                rw [he] at h
                exact MRes.noConfusion h

/-- One-step unfolding of `starLoop`. -/
lemma starLoop_succ (f : Nat) (e : ASTNode) (ctx : MatchContext) (k : Nat) :
    starLoop (f + 1) e ctx k =
      match matchNode f e ctx with
      | .ok true ctx1 => starLoop f e ctx1 (k + 1)
      | .ok false ctx1 => .ok (decide (1 ≤ k)) { ctx1 with position := ctx.position }
      | r1 => r1 := by
  rw [starLoop.eq_def]

/-- Adding one unit of fuel never changes a result that was already
delivered (only `outOfFuel` outcomes can change with more fuel). -/
theorem matchMonoSucc : ∀ fuel : Nat,
    (∀ a ctx r, matchNode fuel a ctx = r → r ≠ .outOfFuel → matchNode (fuel + 1) a ctx = r) ∧
    (∀ cs ctx saved r, seqLoop fuel cs ctx saved = r → r ≠ .outOfFuel →
      seqLoop (fuel + 1) cs ctx saved = r) ∧
    (∀ e ctx k r, starLoop fuel e ctx k = r → r ≠ .outOfFuel →
      starLoop (fuel + 1) e ctx k = r) ∧
    (∀ e n ctx saved r, countLoop fuel e n ctx saved = r → r ≠ .outOfFuel →
      countLoop (fuel + 1) e n ctx saved = r) := by
  intro fuel
  induction fuel with
  | zero =>
      refine ⟨?_, ?_, ?_, ?_⟩
      · intro a ctx r h hne
        simp only [matchNode] at h
        exact absurd h.symm hne
      · intro cs ctx saved r h hne
        cases cs with
        | nil =>
            simp only [seqLoop] at h ⊢
            exact h
        | cons c cs =>
            simp only [seqLoop] at h
            exact absurd h.symm hne
      · intro e ctx k r h hne
        simp only [starLoop] at h
        exact absurd h.symm hne
      · intro e n ctx saved r h hne
        cases n with
        | zero =>
            simp only [countLoop] at h ⊢
            exact h
        | succ n =>
            simp only [countLoop] at h
            exact absurd h.symm hne
  | succ f ih =>
      obtain ⟨ihm, ihs, ihst, ihc⟩ := ih
      refine ⟨?_, ?_, ?_, ?_⟩
      · intro a ctx r h hne
        cases a with
        | char c =>
            simp only [matchNode] at h ⊢
            exact h
        | dot =>
            simp only [matchNode] at h ⊢
            exact h
        | seq cs =>
            simp only [matchNode] at h ⊢
            exact ihs cs ctx ctx.position r h hne
        | orN l r2 =>
            simp only [matchNode] at h ⊢
            cases hl : matchNode f l ctx with
            | ok bl ctxl =>
                rw [hl] at h
                rw [ihm l ctx _ hl (by simp)]
                cases bl with
                | true =>
                    simpa using h
                | false =>
                    simp only at h ⊢
                    cases hr : matchNode f r2 { ctxl with position := ctx.position } with
                    | ok br ctxr =>
                        rw [hr] at h
                        rw [ihm r2 _ _ hr (by simp)]
                        exact h
                    | crash =>
                        rw [hr] at h
                        rw [ihm r2 _ _ hr (by simp)]
                        exact h
                    | outOfFuel =>
                        rw [hr] at h
                        exact absurd h.symm hne
            | crash =>
                rw [hl] at h
                rw [ihm l ctx _ hl (by simp)]
                exact h
            | outOfFuel =>
                rw [hl] at h
                exact absurd h.symm hne
        | group oe idx =>
            cases oe with
            | none =>
                simp only [matchNode] at h ⊢
                exact h
            | some e =>
                simp only [matchNode] at h ⊢
                cases he : matchNode f e ctx with
                | ok be ctxe =>
                    rw [he] at h
                    rw [ihm e ctx _ he (by simp)]
                    exact h
                | crash =>
                    rw [he] at h
                    rw [ihm e ctx _ he (by simp)]
                    exact h
                | outOfFuel =>
                    rw [he] at h
                    exact absurd h.symm hne
        | star e =>
            simp only [matchNode] at h ⊢
            exact ihst e ctx 0 r h hne
        | count e n =>
            simp only [matchNode] at h ⊢
            exact ihc e n ctx ctx.position r h hne
        | icase e =>
            simp only [matchNode] at h ⊢
            cases he : matchNode f e { ctx with ignoreCase := true } with
            | ok be ctxe =>
                rw [he] at h
                rw [ihm e _ _ he (by simp)]
                exact h
            | crash =>
                rw [he] at h
                rw [ihm e _ _ he (by simp)]
                exact h
            | outOfFuel =>
                rw [he] at h
                exact absurd h.symm hne
        | output idx =>
            simp only [matchNode] at h ⊢
            exact h
      · intro cs ctx saved r h hne
        cases cs with
        | nil =>
            simp only [seqLoop] at h ⊢
            exact h
        | cons c cs =>
            simp only [seqLoop] at h ⊢
            cases hc1 : matchNode f c ctx with
            | ok bc ctxc =>
                rw [hc1] at h
                rw [ihm c ctx _ hc1 (by simp)]
                cases bc with
                | true =>
                    simp only at h ⊢
                    exact ihs cs ctxc saved r h hne
                | false =>
                    simpa using h
            | crash =>
                rw [hc1] at h
                rw [ihm c ctx _ hc1 (by simp)]
                exact h
            | outOfFuel =>
                rw [hc1] at h
                exact absurd h.symm hne
      · intro e ctx k r h hne
        rw [starLoop_succ] at h
        rw [starLoop_succ]
        cases he : matchNode f e ctx with
        | ok be ctxe =>
            rw [he] at h
            rw [ihm e ctx _ he (by simp)]
            cases be with
            | true =>
                simp only at h ⊢
                exact ihst e ctxe (k + 1) r h hne
            | false =>
                simpa using h
        | crash =>
            rw [he] at h
            rw [ihm e ctx _ he (by simp)]
            exact h
        | outOfFuel =>
            rw [he] at h
            exact absurd h.symm hne
      · intro e n ctx saved r h hne
        cases n with
        | zero =>
            simp only [countLoop] at h ⊢
            exact h
        | succ n =>
            simp only [countLoop] at h ⊢
            cases he : matchNode f e ctx with
            | ok be ctxe =>
                rw [he] at h
                rw [ihm e ctx _ he (by simp)]
                cases be with
                | true =>
                    simp only at h ⊢
                    exact ihc e n ctxe saved r h hne
                | false =>
                    simpa using h
            | crash =>
                rw [he] at h
                rw [ihm e ctx _ he (by simp)]
                exact h
            | outOfFuel =>
                rw [he] at h
                exact absurd h.symm hne

/-- Fuel monotonicity for `matchNode`. -/
theorem matchNode_mono {f g : Nat} (hfg : f ≤ g) {a : ASTNode} {ctx : MatchContext}
    {r : MRes} (h : matchNode f a ctx = r) (hne : r ≠ .outOfFuel) :
    matchNode g a ctx = r := by
  induction hfg with
  | refl => exact h
  | step h2 ih => exact (matchMonoSucc _).1 a ctx r ih hne

/-- Fuel monotonicity for `starLoop`. -/
theorem starLoop_mono {f g : Nat} (hfg : f ≤ g) {e : ASTNode} {ctx : MatchContext}
    {k : Nat} {r : MRes} (h : starLoop f e ctx k = r) (hne : r ≠ .outOfFuel) :
    starLoop g e ctx k = r := by
  induction hfg with
  | refl => exact h
  | step h2 ih => exact (matchMonoSucc _).2.2.1 e ctx k r ih hne

/-- Fuel monotonicity for `seqLoop`. -/
theorem seqLoop_mono {f g : Nat} (hfg : f ≤ g) {cs : List ASTNode} {ctx : MatchContext}
    {saved : Nat} {r : MRes} (h : seqLoop f cs ctx saved = r) (hne : r ≠ .outOfFuel) :
    seqLoop g cs ctx saved = r := by
  induction hfg with
  | refl => exact h
  | step h2 ih => exact (matchMonoSucc _).2.1 cs ctx saved r ih hne

/-- Fuel monotonicity for `countLoop`. -/
theorem countLoop_mono {f g : Nat} (hfg : f ≤ g) {e : ASTNode} {n : Nat} {ctx : MatchContext}
    {saved : Nat} {r : MRes} (h : countLoop f e n ctx saved = r) (hne : r ≠ .outOfFuel) :
    countLoop g e n ctx saved = r := by
  induction hfg with
  | refl => exact h
  | step h2 ih => exact (matchMonoSucc _).2.2.2 e n ctx saved r ih hne

/-- Fuel-free matching relation: the C++ call returns (no hang, no crash)
with outcome `b` and final state `ctx1`. -/
def Matches (a : ASTNode) (ctx : MatchContext) (b : Bool) (ctx1 : MatchContext) : Prop :=
  ∃ fuel, matchNode fuel a ctx = .ok b ctx1

/-- A chain of `k` consecutive successful repetitions of `e`. -/
inductive StarChain (e : ASTNode) : MatchContext → Nat → MatchContext → Prop where
  | zero (ctx : MatchContext) : StarChain e ctx 0 ctx
  | succ {ctx ctx1 ctx2 : MatchContext} {k : Nat} (h : Matches e ctx true ctx1)
      (hch : StarChain e ctx1 k ctx2) : StarChain e ctx (k + 1) ctx2

lemma starChain_starLoop {e : ASTNode} {c cend : MatchContext} {k : Nat}
    (hch : StarChain e c k cend) :
    ∀ cf f0, matchNode f0 e cend = .ok false cf →
      ∀ j, ∃ fuel,
        starLoop fuel e c j = .ok (decide (1 ≤ j + k)) { cf with position := cend.position } := by
  induction hch with
  | zero ctx =>
      intro cf f0 hfail j
      refine ⟨f0 + 1, ?_⟩
      rw [starLoop_succ, hfail]
      simp
  | @succ ctx ctx1 ctx2 k2 h hch ih =>
      intro cf f0 hfail j
      obtain ⟨f1, hf1⟩ := h
      obtain ⟨f2, hf2⟩ := ih cf f0 hfail (j + 1)
      refine ⟨max f1 f2 + 1, ?_⟩
      rw [starLoop_succ]
      rw [matchNode_mono (Nat.le_max_left f1 f2) hf1 (by simp)]
      simp only
      have harith : j + 1 + k2 = j + (k2 + 1) := by omega
      rw [harith] at hf2
      exact starLoop_mono (Nat.le_max_right f1 f2) hf2 (by simp)

/-- Greedy semantics of `StarNode::match`: run the body as often as it
succeeds; the node succeeds iff at least one repetition did, and the final
position is the one reached after the last successful repetition. -/
theorem star_greedy {e : ASTNode} {c cend cf : MatchContext} {k : Nat}
    (hch : StarChain e c k cend) (hfail : Matches e cend false cf) :
    Matches (.star e) c (decide (1 ≤ k)) { cf with position := cend.position } := by
  obtain ⟨f0, hf0⟩ := hfail
  obtain ⟨fuel, hloop⟩ := starChain_starLoop hch cf f0 hf0 0
  refine ⟨fuel + 1, ?_⟩
  simp only [matchNode]
  simpa using hloop

/-- A found result of the driver comes from the leftmost succeeding start
offset: the root matched there, the returned captures are the match state's
table with slot 0 filled in, and every earlier tried offset failed. -/
lemma searchLoop_found (fuel : Nat) (ast : ASTNode) (text : List Char) :
    ∀ (k s0 s : Nat) (caps : List (Option CaptureGroup)), k = text.length + 1 - s0 →
    searchLoop fuel ast text s0 k = .found s caps →
    s0 ≤ s ∧ s ≤ text.length ∧
    (∃ ctx1, matchNode fuel ast ⟨text, s, [none], false⟩ = .ok true ctx1 ∧
      caps = fixSlotZero ctx1.captures s ctx1.position) ∧
    (∀ t, s0 ≤ t → t < s → ∃ cf, matchNode fuel ast ⟨text, t, [none], false⟩ = .ok false cf) := by
  intro k
  induction k with
  | zero =>
      intro s0 s caps hk h
      simp only [searchLoop] at h
      exact SearchRes.noConfusion h
  | succ k ihk =>
      intro s0 s caps hk h
      have hle : s0 ≤ text.length := by omega
      simp only [searchLoop] at h
      cases hm : matchNode fuel ast ⟨text, s0, [none], false⟩ with
      | ok b ctx1 =>
          rw [hm] at h
          cases b with
          | true =>
              simp only at h
              injection h with hs hcaps
              subst hs
              refine ⟨Nat.le_refl _, hle, ⟨ctx1, hm, hcaps.symm⟩, ?_⟩
              intro t ht1 ht2
              omega
          | false =>
              simp only at h
              have hrec := ihk (s0 + 1) s caps (by omega) h
              obtain ⟨h1, h2, h3, h4⟩ := hrec
              refine ⟨by omega, h2, h3, ?_⟩
              intro t ht1 ht2
              rcases Nat.eq_or_lt_of_le ht1 with he | hlt
              · exact ⟨ctx1, by rw [he] at hm; exact hm⟩
              · exact h4 t hlt ht2
      | crash =>
          rw [hm] at h
          exact SearchRes.noConfusion h
      | outOfFuel =>
          rw [hm] at h
          exact SearchRes.noConfusion h

/-- A found result of the driver comes from the leftmost succeeding start
offset (restated over `findMatchFrom`). -/
theorem findMatchFrom_found (fuel : Nat) (ast : ASTNode) (text : List Char) (s0 s : Nat)
    (caps : List (Option CaptureGroup))
    (h : findMatchFrom fuel ast text s0 = .found s caps) :
    s0 ≤ s ∧ s ≤ text.length ∧
    (∃ ctx1, matchNode fuel ast ⟨text, s, [none], false⟩ = .ok true ctx1 ∧
      caps = fixSlotZero ctx1.captures s ctx1.position) ∧
    (∀ t, s0 ≤ t → t < s → ∃ cf, matchNode fuel ast ⟨text, t, [none], false⟩ = .ok false cf) :=
  searchLoop_found fuel ast text (text.length + 1 - s0) s0 s caps rfl h

/-- A no-match report of the driver means the root failed (with a delivered
result, not a hang) at every start offset it tried. -/
lemma searchLoop_noMatch (fuel : Nat) (ast : ASTNode) (text : List Char) :
    ∀ (k s0 : Nat), k = text.length + 1 - s0 →
    searchLoop fuel ast text s0 k = .noMatch →
    ∀ t, s0 ≤ t → t ≤ text.length →
      ∃ cf, matchNode fuel ast ⟨text, t, [none], false⟩ = .ok false cf := by
  intro k
  induction k with
  | zero =>
      intro s0 hk h t ht1 ht2
      omega
  | succ k ihk =>
      intro s0 hk h
      simp only [searchLoop] at h
      cases hm : matchNode fuel ast ⟨text, s0, [none], false⟩ with
      | ok b ctx1 =>
          rw [hm] at h
          cases b with
          | true =>
              simp only at h
              exact SearchRes.noConfusion h
          | false =>
              simp only at h
              have hrec := ihk (s0 + 1) (by omega) h
              intro t ht1 ht2
              rcases Nat.eq_or_lt_of_le ht1 with he | hlt
              · exact ⟨ctx1, by rw [he] at hm; exact hm⟩
              · exact hrec t hlt ht2
      | crash =>
          rw [hm] at h
          exact SearchRes.noConfusion h
      | outOfFuel =>
          rw [hm] at h
          exact SearchRes.noConfusion h

/-- A no-match report of the driver means the root failed at every offset
(restated over `findMatchFrom`). -/
theorem findMatchFrom_noMatch (fuel : Nat) (ast : ASTNode) (text : List Char) (s0 : Nat)
    (h : findMatchFrom fuel ast text s0 = .noMatch) :
    ∀ t, s0 ≤ t → t ≤ text.length →
      ∃ cf, matchNode fuel ast ⟨text, t, [none], false⟩ = .ok false cf :=
  searchLoop_noMatch fuel ast text (text.length + 1 - s0) s0 rfl h

mutual

/-- Conservative syntactic test: every successful match of this node
consumes at least one character.  (A `group` with a null body never
succeeds, so it passes vacuously; an exact-count of zero or an output
marker can succeed without consuming, so they fail the test.) -/
def consuming : ASTNode → Bool
  | .char _ => true
  | .dot => true
  | .seq cs => consumingL cs
  | .orN l r => consuming l && consuming r
  | .group none _ => true
  | .group (some e) _ => consuming e
  | .star e => consuming e
  | .count e n => decide (n ≠ 0) && consuming e
  | .icase e => consuming e
  | .output _ => false

/-- A sequence consumes iff at least one of its children does (children of
a successful sequence all succeed). -/
def consumingL : List ASTNode → Bool
  | [] => false
  | c :: cs => consuming c || consumingL cs

end

mutual

/-- Well-behavedness test for termination: every group body is present and
every one-or-more repetition body consumes on success. -/
def goodStars : ASTNode → Bool
  | .char _ => true
  | .dot => true
  | .seq cs => goodStarsL cs
  | .orN l r => goodStars l && goodStars r
  | .group none _ => false
  | .group (some e) _ => goodStars e
  | .star e => consuming e && goodStars e
  | .count e _ => goodStars e
  | .icase e => goodStars e
  | .output _ => true

/-- List version of `goodStars`. -/
def goodStarsL : List ASTNode → Bool
  | [] => true
  | c :: cs => goodStars c && goodStarsL cs

end

mutual

/-- The consumption half of `goodStars` alone: every one-or-more repetition
body consumes on success.  Group bodies may be null here — on such a node
the matcher crashes rather than hangs, which still delivers an outcome in
finitely many steps. -/
def starsConsume : ASTNode → Bool
  | .char _ => true
  | .dot => true
  | .seq cs => starsConsumeL cs
  | .orN l r => starsConsume l && starsConsume r
  | .group none _ => true
  | .group (some e) _ => starsConsume e
  | .star e => consuming e && starsConsume e
  | .count e _ => starsConsume e
  | .icase e => starsConsume e
  | .output _ => true

/-- List version of `starsConsume`. -/
def starsConsumeL : List ASTNode → Bool
  | [] => true
  | c :: cs => starsConsume c && starsConsumeL cs

end

mutual

/-- Structural size of a node, used as induction measure. -/
def astSize : ASTNode → Nat
  | .char _ => 1
  | .dot => 1
  | .seq cs => 1 + astSizeL cs
  | .orN l r => 1 + astSize l + astSize r
  | .group none _ => 1
  | .group (some e) _ => 1 + astSize e
  | .star e => 1 + astSize e
  | .count e _ => 1 + astSize e
  | .icase e => 1 + astSize e
  | .output _ => 1

/-- Structural size of a child list. -/
def astSizeL : List ASTNode → Nat
  | [] => 0
  | c :: cs => 1 + astSize c + astSizeL cs

end

/-- A `consuming` node strictly advances the position whenever it succeeds. -/
theorem advanceAll : ∀ fuel : Nat,
    (∀ a ctx ctx1, consuming a = true → matchNode fuel a ctx = .ok true ctx1 →
      ctx.position < ctx1.position) ∧
    (∀ cs ctx saved ctx1, consumingL cs = true → seqLoop fuel cs ctx saved = .ok true ctx1 →
      ctx.position < ctx1.position) ∧
    (∀ e ctx ctx1, consuming e = true → starLoop fuel e ctx 0 = .ok true ctx1 →
      ctx.position < ctx1.position) ∧
    (∀ e n ctx saved ctx1, consuming e = true → countLoop fuel e (n + 1) ctx saved = .ok true ctx1 →
      ctx.position < ctx1.position) := by
  intro fuel
  induction fuel with
  | zero =>
      refine ⟨?_, ?_, ?_, ?_⟩
      · intro a ctx ctx1 hc h
        simp only [matchNode] at h
        exact MRes.noConfusion h
      · intro cs ctx saved ctx1 hc h
        cases cs with
        | nil => simp [consumingL] at hc
        | cons c cs =>
            simp only [seqLoop] at h
            exact MRes.noConfusion h
      · intro e ctx ctx1 hc h
        simp only [starLoop] at h
        exact MRes.noConfusion h
      · intro e n ctx saved ctx1 hc h
        simp only [countLoop] at h
        exact MRes.noConfusion h
  | succ f ih =>
      obtain ⟨ihm, ihs, ihst, ihc⟩ := ih
      refine ⟨?_, ?_, ?_, ?_⟩
      · intro a ctx ctx1 hc h
        cases a with
        | char c =>
            simp only [matchNode] at h
            split at h
            · split at h
              · split at h
                · injection h with hb hc1
                  subst hc1
                  simp
                · exact Bool.noConfusion (MRes.ok.inj h).1
              · split at h
                · injection h with hb hc1
                  subst hc1
                  simp
                · exact Bool.noConfusion (MRes.ok.inj h).1
            · exact Bool.noConfusion (MRes.ok.inj h).1
        | dot =>
            simp only [matchNode] at h
            split at h
            · injection h with hb hc1
              subst hc1
              simp
            · exact Bool.noConfusion (MRes.ok.inj h).1
        | seq cs =>
            simp only [matchNode] at h
            simp only [consuming] at hc
            exact ihs cs ctx ctx.position ctx1 hc h
        | orN l r =>
            simp only [consuming, Bool.and_eq_true] at hc
            simp only [matchNode] at h
            cases hl : matchNode f l ctx with
            | ok bl ctxl =>
                rw [hl] at h
                cases bl with
                | true =>
                    simp only at h
                    injection h with hb hc1
                    subst hc1
                    exact ihm l ctx ctxl hc.1 hl
                | false =>
                    simp only at h
                    cases hr : matchNode f r { ctxl with position := ctx.position } with
                    | ok br ctxr =>
                        rw [hr] at h
                        cases br with
                        | true =>
                            simp only at h
                            injection h with hb hc1
                            subst hc1
                            exact ihm r { ctxl with position := ctx.position } ctxr hc.2 hr
                        | false =>
                            simp only at h
                            exact Bool.noConfusion (MRes.ok.inj h).1
                    | crash =>
                        rw [hr] at h
                        exact MRes.noConfusion h
                    | outOfFuel =>
                        rw [hr] at h
                        exact MRes.noConfusion h
            | crash =>
                rw [hl] at h
                exact MRes.noConfusion h
            | outOfFuel =>
                rw [hl] at h
                exact MRes.noConfusion h
        | group oe idx =>
            cases oe with
            | none =>
                simp only [matchNode] at h
                exact MRes.noConfusion h
            | some e =>
                simp only [matchNode] at h
                simp only [consuming] at hc
                cases he : matchNode f e ctx with
                | ok be ctxe =>
                    rw [he] at h
                    cases be with
                    | true =>
                        simp only at h
                        injection h with hb hc1
                        subst hc1
                        exact ihm e ctx ctxe hc he
                    | false =>
                        simp only at h
                        exact Bool.noConfusion (MRes.ok.inj h).1
                | crash =>
                    rw [he] at h
                    exact MRes.noConfusion h
                | outOfFuel =>
                    rw [he] at h
                    exact MRes.noConfusion h
        | star e =>
            simp only [consuming] at hc
            simp only [matchNode] at h
            exact ihst e ctx ctx1 hc h
        | count e n =>
            simp only [consuming, Bool.and_eq_true, decide_eq_true_eq] at hc
            simp only [matchNode] at h
            cases n with
            | zero => exact absurd rfl hc.1
            | succ n => exact ihc e n ctx ctx.position ctx1 hc.2 h
        | icase e =>
            simp only [consuming] at hc
            simp only [matchNode] at h
            cases he : matchNode f e { ctx with ignoreCase := true } with
            | ok be ctxe =>
                rw [he] at h
                simp only at h
                injection h with hb hc1
                subst hc1
                have := ihm e { ctx with ignoreCase := true } ctxe hc (by rw [he, hb])
                simpa using this
            | crash =>
                rw [he] at h
                exact MRes.noConfusion h
            | outOfFuel =>
                rw [he] at h
                exact MRes.noConfusion h
        | output idx =>
            simp [consuming] at hc
      · intro cs ctx saved ctx1 hc h
        cases cs with
        | nil => simp [consumingL] at hc
        | cons c cs =>
            simp only [consumingL, Bool.or_eq_true] at hc
            simp only [seqLoop] at h
            cases hc1 : matchNode f c ctx with
            | ok bc ctxc =>
                rw [hc1] at h
                cases bc with
                | true =>
                    simp only at h
                    have hrest := (matchInvAll f).2.1 cs ctxc saved true ctx1 h
                    have hfirst := (matchInvAll f).1 c ctx true ctxc hc1
                    rcases hc with hcl | hcr
                    · have hadv := ihm c ctx ctxc hcl hc1
                      have hle := (hrest.2.2.1 rfl).1
                      omega
                    · have hadv := ihs cs ctxc saved ctx1 hcr h
                      have hle := (hfirst.2.2.1 rfl).1
                      omega
                | false =>
                    simp only at h
                    exact Bool.noConfusion (MRes.ok.inj h).1
            | crash =>
                rw [hc1] at h
                exact MRes.noConfusion h
            | outOfFuel =>
                rw [hc1] at h
                exact MRes.noConfusion h
      · intro e ctx ctx1 hc h
        rw [starLoop_succ] at h
        cases he : matchNode f e ctx with
        | ok be ctxe =>
            rw [he] at h
            cases be with
            | true =>
                simp only at h
                have hadv := ihm e ctx ctxe hc he
                have hrest := ((matchInvAll f).2.2.1 e ctxe 1 true ctx1 h).1
                have hle := (hrest.2.2.1 rfl).1
                omega
            | false =>
                simp only at h
                injection h with hb hc1
                simp at hb
        | crash =>
            rw [he] at h
            exact MRes.noConfusion h
        | outOfFuel =>
            rw [he] at h
            exact MRes.noConfusion h
      · intro e n ctx saved ctx1 hc h
        simp only [countLoop] at h
        cases he : matchNode f e ctx with
        | ok be ctxe =>
            rw [he] at h
            cases be with
            | true =>
                simp only at h
                have hadv := ihm e ctx ctxe hc he
                have hrest := (matchInvAll f).2.2.2 e n ctxe saved true ctx1 h
                have hle := (hrest.2.2.1 rfl).1
                omega
            | false =>
                simp only at h
                exact Bool.noConfusion (MRes.ok.inj h).1
        | crash =>
            rw [he] at h
            exact MRes.noConfusion h
        | outOfFuel =>
            rw [he] at h
            exact MRes.noConfusion h

lemma char_complete (c : Char) (ctx : MatchContext) :
    ∃ b ctx1, matchNode 1 (.char c) ctx = .ok b ctx1 := by
  simp only [matchNode]
  split
  · split
    · split
      · exact ⟨_, _, rfl⟩
      · exact ⟨_, _, rfl⟩
    · split
      · exact ⟨_, _, rfl⟩
      · exact ⟨_, _, rfl⟩
  · exact ⟨_, _, rfl⟩

lemma dot_complete (ctx : MatchContext) :
    ∃ b ctx1, matchNode 1 .dot ctx = .ok b ctx1 := by
  simp only [matchNode]
  split
  · exact ⟨_, _, rfl⟩
  · exact ⟨_, _, rfl⟩

/-- Completion under the `goodStars` condition, by strong induction on the
structural size. -/
theorem matchCompleteAux : ∀ N : Nat,
    (∀ a : ASTNode, astSize a ≤ N → goodStars a = true →
      ∀ ctx, ∃ fuel b ctx1, matchNode fuel a ctx = .ok b ctx1) ∧
    (∀ cs : List ASTNode, astSizeL cs ≤ N → goodStarsL cs = true →
      ∀ ctx saved, ∃ fuel b ctx1, seqLoop fuel cs ctx saved = .ok b ctx1) := by
  intro N
  induction N using Nat.strong_induction_on with
  | _ N ihN =>
  constructor
  · intro a hsz hgood ctx
    cases a with
    | char c => exact ⟨1, char_complete c ctx⟩
    | dot => exact ⟨1, dot_complete ctx⟩
    | output idx => exact ⟨1, true, ctx, by simp only [matchNode]⟩
    | seq cs =>
        simp only [astSize] at hsz
        simp only [goodStars] at hgood
        obtain ⟨fuel, b, ctx1, hl⟩ :=
          (ihN (astSizeL cs) (by omega)).2 cs (Nat.le_refl _) hgood ctx ctx.position
        exact ⟨fuel + 1, b, ctx1, by simp only [matchNode]; exact hl⟩
    | orN l r =>
        simp only [astSize] at hsz
        simp only [goodStars, Bool.and_eq_true] at hgood
        obtain ⟨f0, b0, c0, h0⟩ :=
          (ihN (astSize l) (by omega)).1 l (Nat.le_refl _) hgood.1 ctx
        cases b0 with
        | true =>
            refine ⟨f0 + 1, true, c0, ?_⟩
            simp only [matchNode]
            rw [h0]
        | false =>
            obtain ⟨f1, b1, c1, h1⟩ :=
              (ihN (astSize r) (by omega)).1 r (Nat.le_refl _) hgood.2
                { c0 with position := ctx.position }
            refine ⟨max f0 f1 + 1, b1, c1, ?_⟩
            simp only [matchNode]
            rw [matchNode_mono (Nat.le_max_left f0 f1) h0 (by simp)]
            simp only
            rw [matchNode_mono (Nat.le_max_right f0 f1) h1 (by simp)]
            cases b1 <;> simp
    | group oe idx =>
        cases oe with
        | none => simp [goodStars] at hgood
        | some e =>
            simp only [astSize] at hsz
            simp only [goodStars] at hgood
            obtain ⟨f0, b0, c0, h0⟩ :=
              (ihN (astSize e) (by omega)).1 e (Nat.le_refl _) hgood ctx
            cases b0 with
            | true =>
                refine ⟨f0 + 1, true,
                  { c0 with captures := writeCapture c0.captures idx ctx.position c0.position }, ?_⟩
                simp only [matchNode]
                rw [h0]
            | false =>
                refine ⟨f0 + 1, false, c0, ?_⟩
                simp only [matchNode]
                rw [h0]
    | icase e =>
        simp only [astSize] at hsz
        simp only [goodStars] at hgood
        obtain ⟨f0, b0, c0, h0⟩ :=
          (ihN (astSize e) (by omega)).1 e (Nat.le_refl _) hgood
            { ctx with ignoreCase := true }
        refine ⟨f0 + 1, b0, { c0 with ignoreCase := ctx.ignoreCase }, ?_⟩
        simp only [matchNode]
        rw [h0]
    | count e n =>
        simp only [astSize] at hsz
        simp only [goodStars] at hgood
        have ecomp := (ihN (astSize e) (by omega)).1 e (Nat.le_refl _) hgood
        have cloop : ∀ m ctx saved, ∃ fuel b ctx1, countLoop fuel e m ctx saved = .ok b ctx1 := by
          intro m
          induction m with
          | zero =>
              intro ctx saved
              exact ⟨0, true, ctx, by simp only [countLoop]⟩
          | succ m ihm2 =>
              intro ctx saved
              obtain ⟨f0, b0, c0, h0⟩ := ecomp ctx
              cases b0 with
              | false =>
                  refine ⟨f0 + 1, false, { c0 with position := saved }, ?_⟩
                  simp only [countLoop]
                  rw [h0]
              | true =>
                  obtain ⟨f1, b1, c1, h1⟩ := ihm2 c0 saved
                  refine ⟨max f0 f1 + 1, b1, c1, ?_⟩
                  simp only [countLoop]
                  rw [matchNode_mono (Nat.le_max_left f0 f1) h0 (by simp)]
                  simp only
                  exact countLoop_mono (Nat.le_max_right f0 f1) h1 (by simp)
        obtain ⟨fuel, b, ctx1, hl⟩ := cloop n ctx ctx.position
        exact ⟨fuel + 1, b, ctx1, by simp only [matchNode]; exact hl⟩
    | star e =>
        simp only [astSize] at hsz
        simp only [goodStars, Bool.and_eq_true] at hgood
        have ecomp := (ihN (astSize e) (by omega)).1 e (Nat.le_refl _) hgood.2
        have sloop : ∀ m ctx2 k, ctx2.input.length + 1 - ctx2.position ≤ m →
            ∃ fuel b ctx1, starLoop fuel e ctx2 k = .ok b ctx1 := by
          intro m
          induction m with
          | zero =>
              intro ctx2 k hm
              obtain ⟨f0, b0, c0, h0⟩ := ecomp ctx2
              cases b0 with
              | false =>
                  refine ⟨f0 + 1, decide (1 ≤ k), { c0 with position := ctx2.position }, ?_⟩
                  rw [starLoop_succ, h0]
              | true =>
                  exfalso
                  have hadv := (advanceAll f0).1 e ctx2 c0 hgood.1 h0
                  have hinv := (matchInvAll f0).1 e ctx2 true c0 h0
                  have hor := (hinv.2.2.1 rfl).2
                  omega
          | succ m ihm2 =>
              intro ctx2 k hm
              obtain ⟨f0, b0, c0, h0⟩ := ecomp ctx2
              cases b0 with
              | false =>
                  refine ⟨f0 + 1, decide (1 ≤ k), { c0 with position := ctx2.position }, ?_⟩
                  rw [starLoop_succ, h0]
              | true =>
                  have hadv := (advanceAll f0).1 e ctx2 c0 hgood.1 h0
                  have hinv := (matchInvAll f0).1 e ctx2 true c0 h0
                  have hor := (hinv.2.2.1 rfl).2
                  have hlen : c0.input.length = ctx2.input.length := by rw [hinv.1]
                  obtain ⟨f1, b1, c1, h1⟩ := ihm2 c0 (k + 1) (by omega)
                  refine ⟨max f0 f1 + 1, b1, c1, ?_⟩
                  rw [starLoop_succ]
                  rw [matchNode_mono (Nat.le_max_left f0 f1) h0 (by simp)]
                  simp only
                  exact starLoop_mono (Nat.le_max_right f0 f1) h1 (by simp)
        obtain ⟨fuel, b, ctx1, hl⟩ :=
          sloop (ctx.input.length + 1 - ctx.position) ctx 0 (Nat.le_refl _)
        exact ⟨fuel + 1, b, ctx1, by simp only [matchNode]; exact hl⟩
  · intro cs hsz hgood ctx saved
    cases cs with
    | nil => exact ⟨0, true, ctx, by simp only [seqLoop]⟩
    | cons c cs =>
        simp only [astSizeL] at hsz
        simp only [goodStarsL, Bool.and_eq_true] at hgood
        obtain ⟨f0, b0, c0, h0⟩ :=
          (ihN (astSize c) (by omega)).1 c (Nat.le_refl _) hgood.1 ctx
        cases b0 with
        | false =>
            refine ⟨f0 + 1, false, { c0 with position := saved }, ?_⟩
            simp only [seqLoop]
            rw [h0]
        | true =>
            obtain ⟨f1, b1, c1, h1⟩ :=
              (ihN (astSizeL cs) (by omega)).2 cs (Nat.le_refl _) hgood.2 c0 saved
            refine ⟨max f0 f1 + 1, b1, c1, ?_⟩
            simp only [seqLoop]
            rw [matchNode_mono (Nat.le_max_left f0 f1) h0 (by simp)]
            simp only
            exact seqLoop_mono (Nat.le_max_right f0 f1) h1 (by simp)

/-- Matching completes (the C++ call returns a boolean) for every AST whose
groups have bodies and whose one-or-more repetition bodies always consume. -/
theorem matchComplete (a : ASTNode) (hgood : goodStars a = true) (ctx : MatchContext) :
    ∃ fuel b ctx1, matchNode fuel a ctx = .ok b ctx1 :=
  (matchCompleteAux (astSize a)).1 a (Nat.le_refl _) hgood ctx

/-- Delivery under the `starsConsume` condition alone, by strong induction
on the structural size: some fuel suffices for the call to end on its own —
with a boolean result or, on a null group body, with the crash — rather
than by running out of fuel. -/
theorem matchDeliversAux : ∀ N : Nat,
    (∀ a : ASTNode, astSize a ≤ N → starsConsume a = true →
      ∀ ctx, ∃ fuel, matchNode fuel a ctx ≠ MRes.outOfFuel) ∧
    (∀ cs : List ASTNode, astSizeL cs ≤ N → starsConsumeL cs = true →
      ∀ ctx saved, ∃ fuel, seqLoop fuel cs ctx saved ≠ MRes.outOfFuel) := by
  intro N
  induction N using Nat.strong_induction_on with
  | _ N ihN =>
  constructor
  · intro a hsz hgood ctx
    cases a with
    | char c =>
        obtain ⟨b, c1, h⟩ := char_complete c ctx
        exact ⟨1, by rw [h]; simp⟩
    | dot =>
        obtain ⟨b, c1, h⟩ := dot_complete ctx
        exact ⟨1, by rw [h]; simp⟩
    | output idx => exact ⟨1, by simp only [matchNode]; simp⟩
    | seq cs =>
        simp only [astSize] at hsz
        simp only [starsConsume] at hgood
        obtain ⟨fuel, hl⟩ :=
          (ihN (astSizeL cs) (by omega)).2 cs (Nat.le_refl _) hgood ctx ctx.position
        exact ⟨fuel + 1, by simp only [matchNode]; exact hl⟩
    | orN l r =>
        simp only [astSize] at hsz
        simp only [starsConsume, Bool.and_eq_true] at hgood
        obtain ⟨f0, h0⟩ := (ihN (astSize l) (by omega)).1 l (Nat.le_refl _) hgood.1 ctx
        cases hr0 : matchNode f0 l ctx with
        | outOfFuel => exact absurd hr0 h0
        | crash =>
            refine ⟨f0 + 1, ?_⟩
            simp only [matchNode]
            rw [hr0]
            simp
        | ok b0 c0 =>
            cases b0 with
            | true =>
                refine ⟨f0 + 1, ?_⟩
                simp only [matchNode]
                rw [hr0]
                simp
            | false =>
                obtain ⟨f1, h1⟩ := (ihN (astSize r) (by omega)).1 r (Nat.le_refl _) hgood.2
                  { c0 with position := ctx.position }
                cases hr1 : matchNode f1 r { c0 with position := ctx.position } with
                | outOfFuel => exact absurd hr1 h1
                | crash =>
                    refine ⟨max f0 f1 + 1, ?_⟩
                    simp only [matchNode]
                    rw [matchNode_mono (Nat.le_max_left f0 f1) hr0 (by simp)]
                    simp only
                    rw [matchNode_mono (Nat.le_max_right f0 f1) hr1 (by simp)]
                    simp
                | ok b1 c1 =>
                    refine ⟨max f0 f1 + 1, ?_⟩
                    simp only [matchNode]
                    rw [matchNode_mono (Nat.le_max_left f0 f1) hr0 (by simp)]
                    simp only
                    rw [matchNode_mono (Nat.le_max_right f0 f1) hr1 (by simp)]
                    cases b1 <;> simp
    | group oe idx =>
        cases oe with
        | none => exact ⟨1, by simp only [matchNode]; simp⟩
        | some e =>
            simp only [astSize] at hsz
            simp only [starsConsume] at hgood
            obtain ⟨f0, h0⟩ := (ihN (astSize e) (by omega)).1 e (Nat.le_refl _) hgood ctx
            cases hr0 : matchNode f0 e ctx with
            | outOfFuel => exact absurd hr0 h0
            | crash =>
                refine ⟨f0 + 1, ?_⟩
                simp only [matchNode]
                rw [hr0]
                simp
            | ok b0 c0 =>
                refine ⟨f0 + 1, ?_⟩
                simp only [matchNode]
                rw [hr0]
                cases b0 <;> simp
    | icase e =>
        simp only [astSize] at hsz
        simp only [starsConsume] at hgood
        obtain ⟨f0, h0⟩ := (ihN (astSize e) (by omega)).1 e (Nat.le_refl _) hgood
          { ctx with ignoreCase := true }
        cases hr0 : matchNode f0 e { ctx with ignoreCase := true } with
        | outOfFuel => exact absurd hr0 h0
        | crash =>
            refine ⟨f0 + 1, ?_⟩
            simp only [matchNode]
            rw [hr0]
            simp
        | ok b0 c0 =>
            refine ⟨f0 + 1, ?_⟩
            simp only [matchNode]
            rw [hr0]
            simp
    | count e n =>
        simp only [astSize] at hsz
        simp only [starsConsume] at hgood
        have ecomp := (ihN (astSize e) (by omega)).1 e (Nat.le_refl _) hgood
        have cloop : ∀ m ctx saved, ∃ fuel, countLoop fuel e m ctx saved ≠ MRes.outOfFuel := by
          intro m
          induction m with
          | zero =>
              intro ctx saved
              exact ⟨0, by simp only [countLoop]; simp⟩
          | succ m ihm2 =>
              intro ctx saved
              obtain ⟨f0, h0⟩ := ecomp ctx
              cases hr0 : matchNode f0 e ctx with
              | outOfFuel => exact absurd hr0 h0
              | crash =>
                  refine ⟨f0 + 1, ?_⟩
                  simp only [countLoop]
                  rw [hr0]
                  simp
              | ok b0 c0 =>
                  cases b0 with
                  | false =>
                      refine ⟨f0 + 1, ?_⟩
                      simp only [countLoop]
                      rw [hr0]
                      simp
                  | true =>
                      obtain ⟨f1, h1⟩ := ihm2 c0 saved
                      cases hr1 : countLoop f1 e m c0 saved with
                      | outOfFuel => exact absurd hr1 h1
                      | crash =>
                          refine ⟨max f0 f1 + 1, ?_⟩
                          simp only [countLoop]
                          rw [matchNode_mono (Nat.le_max_left f0 f1) hr0 (by simp)]
                          simp only
                          rw [countLoop_mono (Nat.le_max_right f0 f1) hr1 (by simp)]
                          simp
                      | ok b1 c1 =>
                          refine ⟨max f0 f1 + 1, ?_⟩
                          simp only [countLoop]
                          rw [matchNode_mono (Nat.le_max_left f0 f1) hr0 (by simp)]
                          simp only
                          rw [countLoop_mono (Nat.le_max_right f0 f1) hr1 (by simp)]
                          simp
        obtain ⟨fuel, hl⟩ := cloop n ctx ctx.position
        exact ⟨fuel + 1, by simp only [matchNode]; exact hl⟩
    | star e =>
        simp only [astSize] at hsz
        simp only [starsConsume, Bool.and_eq_true] at hgood
        have ecomp := (ihN (astSize e) (by omega)).1 e (Nat.le_refl _) hgood.2
        have sloop : ∀ m ctx2 k, ctx2.input.length + 1 - ctx2.position ≤ m →
            ∃ fuel, starLoop fuel e ctx2 k ≠ MRes.outOfFuel := by
          intro m
          induction m with
          | zero =>
              intro ctx2 k hm
              obtain ⟨f0, h0⟩ := ecomp ctx2
              cases hr0 : matchNode f0 e ctx2 with
              | outOfFuel => exact absurd hr0 h0
              | crash =>
                  refine ⟨f0 + 1, ?_⟩
                  rw [starLoop_succ, hr0]
                  simp
              | ok b0 c0 =>
                  cases b0 with
                  | false =>
                      refine ⟨f0 + 1, ?_⟩
                      rw [starLoop_succ, hr0]
                      simp
                  | true =>
                      exfalso
                      have hadv := (advanceAll f0).1 e ctx2 c0 hgood.1 hr0
                      have hinv := (matchInvAll f0).1 e ctx2 true c0 hr0
                      have hor := (hinv.2.2.1 rfl).2
                      omega
          | succ m ihm2 =>
              intro ctx2 k hm
              obtain ⟨f0, h0⟩ := ecomp ctx2
              cases hr0 : matchNode f0 e ctx2 with
              | outOfFuel => exact absurd hr0 h0
              | crash =>
                  refine ⟨f0 + 1, ?_⟩
                  rw [starLoop_succ, hr0]
                  simp
              | ok b0 c0 =>
                  cases b0 with
                  | false =>
                      refine ⟨f0 + 1, ?_⟩
                      rw [starLoop_succ, hr0]
                      simp
                  | true =>
                      have hadv := (advanceAll f0).1 e ctx2 c0 hgood.1 hr0
                      have hinv := (matchInvAll f0).1 e ctx2 true c0 hr0
                      have hor := (hinv.2.2.1 rfl).2
                      have hlen : c0.input.length = ctx2.input.length := by rw [hinv.1]
                      obtain ⟨f1, h1⟩ := ihm2 c0 (k + 1) (by omega)
                      cases hr1 : starLoop f1 e c0 (k + 1) with
                      | outOfFuel => exact absurd hr1 h1
                      | crash =>
                          refine ⟨max f0 f1 + 1, ?_⟩
                          rw [starLoop_succ]
                          rw [matchNode_mono (Nat.le_max_left f0 f1) hr0 (by simp)]
                          simp only
                          rw [starLoop_mono (Nat.le_max_right f0 f1) hr1 (by simp)]
                          simp
                      | ok b1 c1 =>
                          refine ⟨max f0 f1 + 1, ?_⟩
                          rw [starLoop_succ]
                          rw [matchNode_mono (Nat.le_max_left f0 f1) hr0 (by simp)]
                          simp only
                          rw [starLoop_mono (Nat.le_max_right f0 f1) hr1 (by simp)]
                          simp
        obtain ⟨fuel, hl⟩ :=
          sloop (ctx.input.length + 1 - ctx.position) ctx 0 (Nat.le_refl _)
        exact ⟨fuel + 1, by simp only [matchNode]; exact hl⟩
  · intro cs hsz hgood ctx saved
    cases cs with
    | nil => exact ⟨0, by simp only [seqLoop]; simp⟩
    | cons c cs =>
        simp only [astSizeL] at hsz
        simp only [starsConsumeL, Bool.and_eq_true] at hgood
        obtain ⟨f0, h0⟩ := (ihN (astSize c) (by omega)).1 c (Nat.le_refl _) hgood.1 ctx
        cases hr0 : matchNode f0 c ctx with
        | outOfFuel => exact absurd hr0 h0
        | crash =>
            refine ⟨f0 + 1, ?_⟩
            simp only [seqLoop]
            rw [hr0]
            simp
        | ok b0 c0 =>
            cases b0 with
            | false =>
                refine ⟨f0 + 1, ?_⟩
                simp only [seqLoop]
                rw [hr0]
                simp
            | true =>
                obtain ⟨f1, h1⟩ :=
                  (ihN (astSizeL cs) (by omega)).2 cs (Nat.le_refl _) hgood.2 c0 saved
                cases hr1 : seqLoop f1 cs c0 saved with
                | outOfFuel => exact absurd hr1 h1
                | crash =>
                    refine ⟨max f0 f1 + 1, ?_⟩
                    simp only [seqLoop]
                    rw [matchNode_mono (Nat.le_max_left f0 f1) hr0 (by simp)]
                    simp only
                    rw [seqLoop_mono (Nat.le_max_right f0 f1) hr1 (by simp)]
                    simp
                | ok b1 c1 =>
                    refine ⟨max f0 f1 + 1, ?_⟩
                    simp only [seqLoop]
                    rw [matchNode_mono (Nat.le_max_left f0 f1) hr0 (by simp)]
                    simp only
                    rw [seqLoop_mono (Nat.le_max_right f0 f1) hr1 (by simp)]
                    simp

/-- The matcher never hangs on an AST all of whose one-or-more repetition
bodies consume on success: some fuel makes the call deliver a final
outcome — a boolean result or, for a null group body, the crash. -/
theorem matchDelivers (a : ASTNode) (hgood : starsConsume a = true) (ctx : MatchContext) :
    ∃ fuel, matchNode fuel a ctx ≠ MRes.outOfFuel :=
  (matchDeliversAux (astSize a)).1 a (Nat.le_refl _) hgood ctx

/-- The AST that `parsePattern` produces (at first compilation) for the
pattern consisting of a parenthesized zero-count atom under a star. -/
def loopyStarBody : ASTNode := .group (some (.seq [.count (.char 'a') 0])) 1

/-- The star body of `loopyAst` succeeds without moving the position (or the
fuel runs out first). -/
lemma loopyStarBody_result : ∀ (f : Nat) (ctx : MatchContext),
    matchNode f loopyStarBody ctx = .outOfFuel ∨
    matchNode f loopyStarBody ctx =
      .ok true { ctx with captures := writeCapture ctx.captures 1 ctx.position ctx.position } := by
  intro f ctx
  match f with
  | 0 => left; simp only [matchNode]
  | 1 => left; simp only [loopyStarBody, matchNode]
  | 2 => left; simp only [loopyStarBody, matchNode, seqLoop]
  | 3 => left; simp only [loopyStarBody, matchNode, seqLoop]
  | (n + 4) =>
      right
      simp only [loopyStarBody, matchNode, seqLoop, countLoop]

/-- The star loop over `loopyStarBody` never terminates: whatever the fuel,
it runs out. -/
lemma starLoop_loopy_diverges : ∀ (f : Nat) (ctx : MatchContext) (k : Nat),
    starLoop f loopyStarBody ctx k = .outOfFuel := by
  intro f
  induction f with
  | zero =>
      intro ctx k
      simp only [starLoop]
  | succ f ih =>
      intro ctx k
      rw [starLoop_succ]
      rcases loopyStarBody_result f ctx with h | h
      · rw [h]
      · rw [h]
        simp only
        exact ih _ _

/-- The whole compiled AST of the looping pattern also never returns: the
sequence wrapper only forwards the hang of its star child. -/
lemma seqStar_loopy_diverges : ∀ (f : Nat) (ctx : MatchContext),
    matchNode f (.seq [.star loopyStarBody]) ctx = .outOfFuel := by
  intro f ctx
  match f with
  | 0 => simp only [matchNode]
  | 1 => simp only [matchNode, seqLoop]
  | 2 => simp only [matchNode, seqLoop]
  | f + 3 =>
      simp only [matchNode, seqLoop, starLoop_loopy_diverges]

mutual

/-- Shift every group index in a node by `d` (the effect of starting the
group counter `d` higher). -/
def astShift (d : Int) : ASTNode → ASTNode
  | .char c => .char c
  | .dot => .dot
  | .seq cs => .seq (astShiftL d cs)
  | .orN l r => .orN (astShift d l) (astShift d r)
  | .group none i => .group none (i + d)
  | .group (some e) i => .group (some (astShift d e)) (i + d)
  | .star e => .star (astShift d e)
  | .count e n => .count (astShift d e) n
  | .icase e => .icase (astShift d e)
  | .output i => .output i

/-- List version of `astShift`. -/
def astShiftL (d : Int) : List ASTNode → List ASTNode
  | [] => []
  | c :: cs => astShift d c :: astShiftL d cs

end

/-- Shift a parse result by `d`: group indices and the counter move together. -/
def shiftPRes (d : Int) : PRes → PRes
  | .outOfFuel => .outOfFuel
  | .done none pos cnt => .done none pos (cnt + d)
  | .done (some a) pos cnt => .done (some (astShift d a)) pos (cnt + d)

mutual

/-- A node containing no capturing group. -/
def groupFree : ASTNode → Bool
  | .char _ => true
  | .dot => true
  | .seq cs => groupFreeL cs
  | .orN l r => groupFree l && groupFree r
  | .group _ _ => false
  | .star e => groupFree e
  | .count e _ => groupFree e
  | .icase e => groupFree e
  | .output _ => true

/-- List version of `groupFree`. -/
def groupFreeL : List ASTNode → Bool
  | [] => true
  | c :: cs => groupFree c && groupFreeL cs

end

lemma getD_shift (d : Int) (o : Option ASTNode) (b : ASTNode) :
    (o.map (astShift d)).getD (astShift d b) = astShift d (o.getD b) := by
  cases o <;> rfl

lemma astShiftL_append (d : Int) (xs ys : List ASTNode) :
    astShiftL d (xs ++ ys) = astShiftL d xs ++ astShiftL d ys := by
  induction xs with
  | nil => simp [astShiftL]
  | cons c cs ih => simp [astShiftL, ih]

lemma astShiftL_isEmpty (d : Int) (xs : List ASTNode) :
    (astShiftL d xs).isEmpty = xs.isEmpty := by
  cases xs <;> simp [astShiftL]


lemma parseCount_shift (d : Int) (base : ASTNode) (p : List Char) (pos : Nat) :
    parseCount (astShift d base) p pos =
      ((parseCount base p pos).1.map (astShift d), (parseCount base p pos).2) := by
  simp only [parseCount]
  split
  · simp [astShift]
  · split
    · split
      · split
        · simp
        · simp [astShift]
      · simp
    · simp

lemma parseIgnoreCase_shift (d : Int) (base : ASTNode) (p : List Char) (pos : Nat) :
    parseIgnoreCase (astShift d base) p pos =
      ((parseIgnoreCase base p pos).1.map (astShift d), (parseIgnoreCase base p pos).2) := by
  simp only [parseIgnoreCase]
  split
  · split
    · simp [astShift]
    · simp
  · simp

lemma applySuffixes_shift (d : Int) (base : ASTNode) (p : List Char) (pos : Nat) :
    applySuffixes (astShift d base) p pos =
      (astShift d (applySuffixes base p pos).1, (applySuffixes base p pos).2) := by
  simp only [applySuffixes]
  rw [parseCount_shift]
  cases hc : (parseCount base p pos).1 with
  | none =>
      simp only [hc, Option.map, Option.getD]
      rw [parseIgnoreCase_shift]
      cases hi : (parseIgnoreCase base p (parseCount base p pos).2).1 with
      | none => simp [hi]
      | some y => simp [hi]
  | some x =>
      simp only [hc, Option.map, Option.getD]
      rw [parseIgnoreCase_shift]
      cases hi : (parseIgnoreCase x p (parseCount base p pos).2).1 with
      | none => simp [hi]
      | some y => simp [hi]

/-- The recursive-descent parser is equivariant under shifting the group
counter: starting the counter `d` higher yields the same parse with every
group index and the final counter shifted by `d`. -/
theorem parseShiftAll : ∀ fuel : Nat, ∀ (p : List Char) (pos : Nat) (cnt d : Int),
    (parseExpr fuel p pos (cnt + d) = shiftPRes d (parseExpr fuel p pos cnt)) ∧
    (∀ left, parseExprLoop fuel p pos (cnt + d) (astShift d left) =
      shiftPRes d (parseExprLoop fuel p pos cnt left)) ∧
    (parseTerm fuel p pos (cnt + d) = shiftPRes d (parseTerm fuel p pos cnt)) ∧
    (∀ acc, parseTermLoop fuel p pos (cnt + d) (astShiftL d acc) =
      shiftPRes d (parseTermLoop fuel p pos cnt acc)) ∧
    (parseFactor fuel p pos (cnt + d) = shiftPRes d (parseFactor fuel p pos cnt)) ∧
    (parseGroup fuel p pos (cnt + d) = shiftPRes d (parseGroup fuel p pos cnt)) := by
  intro fuel
  induction fuel with
  | zero =>
      intro p pos cnt d
      refine ⟨?_, ?_, ?_, ?_, ?_, ?_⟩
      · simp only [parseExpr, shiftPRes]
      · intro left
        simp only [parseExprLoop, shiftPRes]
      · simp only [parseTerm, shiftPRes]
      · intro acc
        simp only [parseTermLoop, shiftPRes]
      · simp only [parseFactor, shiftPRes]
      · simp only [parseGroup, shiftPRes]
  | succ f ih =>
      intro p pos cnt d
      refine ⟨?_, ?_, ?_, ?_, ?_, ?_⟩
      · simp only [parseExpr]
        rw [(ih p pos cnt d).2.2.1]
        cases ht : parseTerm f p pos cnt with
        | outOfFuel => simp [shiftPRes]
        | done a pos1 cnt1 =>
            cases a with
            | none => simp [shiftPRes]
            | some left =>
                simp only [shiftPRes]
                exact (ih p pos1 cnt1 d).2.1 left
      · intro left
        simp only [parseExprLoop]
        split
        · rw [(ih p (pos + 1) cnt d).2.2.1]
          cases ht : parseTerm f p (pos + 1) cnt with
          | outOfFuel => simp [shiftPRes]
          | done a pos1 cnt1 =>
              cases a with
              | none => simp [shiftPRes]
              | some right =>
                  simp only [shiftPRes]
                  exact (ih p pos1 cnt1 d).2.1 (.orN left right)
        · simp [shiftPRes]
      · simp only [parseTerm]
        exact (ih p pos cnt d).2.2.2.1 []
      · intro acc
        simp only [parseTermLoop]
        rw [(ih p pos cnt d).2.2.2.2.1]
        cases hf : parseFactor f p pos cnt with
        | outOfFuel => simp [shiftPRes]
        | done a pos1 cnt1 =>
            cases a with
            | none =>
                simp only [shiftPRes, astShiftL_isEmpty]
                split
                · simp [shiftPRes]
                · simp [shiftPRes, astShift]
            | some ff =>
                simp only [shiftPRes]
                have hrec := (ih p pos1 cnt1 d).2.2.2.1 (acc ++ [ff])
                rw [astShiftL_append] at hrec
                simpa [astShiftL] using hrec
      · simp only [parseFactor]
        split
        · exact (ih p (pos + 1) cnt d).2.2.2.2.2
        · split
          · have hsuf := applySuffixes_shift d .dot p (pos + 1)
            rw [show astShift d .dot = .dot from rfl] at hsuf
            have hfst := congrArg Prod.fst hsuf
            have hsnd := congrArg Prod.snd hsuf
            simp only at hfst hsnd
            simp only [shiftPRes]
            rw [← hfst]
          · split
            · have hsuf := applySuffixes_shift d (.char (curC p pos)) p (pos + 1)
              rw [show astShift d (.char (curC p pos)) = .char (curC p pos) from rfl] at hsuf
              have hfst := congrArg Prod.fst hsuf
              simp only at hfst
              simp only [shiftPRes]
              rw [← hfst]
            · simp [shiftPRes]
      · simp only [parseGroup]
        rw [(ih p pos cnt d).1]
        cases he : parseExpr f p pos cnt with
        | outOfFuel => simp [shiftPRes]
        | done e pos1 cnt1 =>
            have hgs : (ASTNode.group (e.map (astShift d)) (cnt1 + d)) =
                astShift d (.group e cnt1) := by
              cases e <;> rfl
            cases e with
            | none =>
                simp only [shiftPRes]
                split
                · have hsuf := applySuffixes_shift d (.group none cnt1) p (pos1 + 1)
                  rw [show astShift d (.group none cnt1) = .group none (cnt1 + d) from rfl]
                    at hsuf
                  rw [hsuf]
                  have harith : cnt1 + d + 1 = cnt1 + 1 + d := by ring
                  rw [harith]
                · simp [shiftPRes]
            | some einner =>
                simp only [shiftPRes]
                split
                · have hsuf := applySuffixes_shift d (.group (some einner) cnt1) p (pos1 + 1)
                  rw [show astShift d (.group (some einner) cnt1) =
                      .group (some (astShift d einner)) (cnt1 + d) from rfl] at hsuf
                  rw [hsuf]
                  have harith : cnt1 + d + 1 = cnt1 + 1 + d := by ring
                  rw [harith]
                · simp [shiftPRes]

/-- Shifting is the identity on group-free nodes. -/
lemma shiftIdAux : ∀ N : Nat, ∀ d : Int,
    (∀ a, astSize a ≤ N → groupFree a = true → astShift d a = a) ∧
    (∀ cs, astSizeL cs ≤ N → groupFreeL cs = true → astShiftL d cs = cs) := by
  intro N
  induction N using Nat.strong_induction_on with
  | _ N ihN =>
  intro d
  constructor
  · intro a hsz hg
    cases a with
    | char c => rfl
    | dot => rfl
    | output i => rfl
    | seq cs =>
        simp only [astSize] at hsz
        simp only [groupFree] at hg
        simp only [astShift]
        rw [(ihN (astSizeL cs) (by omega) d).2 cs (Nat.le_refl _) hg]
    | orN l r =>
        simp only [astSize] at hsz
        simp only [groupFree, Bool.and_eq_true] at hg
        simp only [astShift]
        rw [(ihN (astSize l) (by omega) d).1 l (Nat.le_refl _) hg.1,
          (ihN (astSize r) (by omega) d).1 r (Nat.le_refl _) hg.2]
    | group oe i => simp [groupFree] at hg
    | star e =>
        simp only [astSize] at hsz
        simp only [groupFree] at hg
        simp only [astShift]
        rw [(ihN (astSize e) (by omega) d).1 e (Nat.le_refl _) hg]
    | count e n =>
        simp only [astSize] at hsz
        simp only [groupFree] at hg
        simp only [astShift]
        rw [(ihN (astSize e) (by omega) d).1 e (Nat.le_refl _) hg]
    | icase e =>
        simp only [astSize] at hsz
        simp only [groupFree] at hg
        simp only [astShift]
        rw [(ihN (astSize e) (by omega) d).1 e (Nat.le_refl _) hg]
  · intro cs hsz hg
    cases cs with
    | nil => rfl
    | cons c cs =>
        simp only [astSizeL] at hsz
        simp only [groupFreeL, Bool.and_eq_true] at hg
        simp only [astShiftL]
        rw [(ihN (astSize c) (by omega) d).1 c (Nat.le_refl _) hg.1,
          (ihN (astSizeL cs) (by omega) d).2 cs (Nat.le_refl _) hg.2]

lemma astShift_groupFree {a : ASTNode} (d : Int) (hg : groupFree a = true) :
    astShift d a = a :=
  (shiftIdAux (astSize a) d).1 a (Nat.le_refl _) hg

/-- For a pattern whose AST carries no capturing group, the compilation
result is independent of the incoming value of the global group counter
(only the returned counter shifts). -/
theorem parsePattern_groupFree_shift (fuel : Nat) (p : List Char) (cnt cnt' : Int)
    (a : ASTNode) (o c2 : Int)
    (h : parsePattern fuel p cnt = .done (some a) o c2) (hg : groupFree a = true) :
    parsePattern fuel p cnt' = .done (some a) o (cnt' + (c2 - cnt)) := by
  unfold parsePattern at h ⊢
  cases he : parseExpr fuel p 0 cnt with
  | outOfFuel => rw [he] at h; exact PPRes.noConfusion h
  | done a1 pos1 c1 =>
      rw [he] at h
      simp only at h
      injection h with h1 h2 h3
      subst h2
      have hshift := (parseShiftAll fuel p 0 cnt (cnt' - cnt)).1
      rw [he, h1] at hshift
      simp only [shiftPRes] at hshift
      rw [astShift_groupFree (cnt' - cnt) hg] at hshift
      have hc : cnt + (cnt' - cnt) = cnt' := by ring
      rw [hc] at hshift
      rw [hshift]
      simp only
      have hc2 : c1 + (cnt' - cnt) = cnt' + (c2 - cnt) := by rw [h3]; ring
      rw [hc2]

mutual

/-- All group indices occurring in a node, in no particular order. -/
def idxList : ASTNode → List Int
  | .char _ => []
  | .dot => []
  | .seq cs => idxListL cs
  | .orN l r => idxList l ++ idxList r
  | .group none i => [i]
  | .group (some e) i => i :: idxList e
  | .star e => idxList e
  | .count e _ => idxList e
  | .icase e => idxList e
  | .output _ => []

/-- List version of `idxList`. -/
def idxListL : List ASTNode → List Int
  | [] => []
  | c :: cs => idxList c ++ idxListL cs

end

mutual

/-- Closing-order numbering invariant: every capturing group carries an
index strictly greater than every group index inside its body. -/
def nestedOk : ASTNode → Bool
  | .char _ => true
  | .dot => true
  | .seq cs => nestedOkL cs
  | .orN l r => nestedOk l && nestedOk r
  | .group none _ => true
  | .group (some e) i => (idxList e).all (fun j => decide (j < i)) && nestedOk e
  | .star e => nestedOk e
  | .count e _ => nestedOk e
  | .icase e => nestedOk e
  | .output _ => true

/-- List version of `nestedOk`. -/
def nestedOkL : List ASTNode → Bool
  | [] => true
  | c :: cs => nestedOk c && nestedOkL cs

end

lemma parseCount_cases (base : ASTNode) (p : List Char) (pos : Nat) :
    (parseCount base p pos).1 = none ∨ (parseCount base p pos).1 = some (.star base) ∨
    ∃ n, (parseCount base p pos).1 = some (.count base n) := by
  simp only [parseCount]
  split
  · right; left; rfl
  · split
    · split
      · split
        · left; rfl
        · right; right; exact ⟨_, rfl⟩
      · left; rfl
    · left; rfl

lemma parseIgnoreCase_cases (base : ASTNode) (p : List Char) (pos : Nat) :
    (parseIgnoreCase base p pos).1 = none ∨ (parseIgnoreCase base p pos).1 = some (.icase base) := by
  simp only [parseIgnoreCase]
  split
  · split
    · right; rfl
    · left; rfl
  · left; rfl

lemma applySuffixes_pres (base : ASTNode) (p : List Char) (pos : Nat) :
    idxList (applySuffixes base p pos).1 = idxList base ∧
    nestedOk (applySuffixes base p pos).1 = nestedOk base := by
  simp only [applySuffixes]
  rcases parseCount_cases base p pos with h | h | ⟨n, h⟩
  · rw [h]
    simp only [Option.getD]
    rcases parseIgnoreCase_cases base p (parseCount base p pos).2 with h2 | h2 <;> rw [h2] <;>
      simp [idxList, nestedOk]
  · rw [h]
    simp only [Option.getD]
    rcases parseIgnoreCase_cases (.star base) p (parseCount base p pos).2 with h2 | h2 <;>
      rw [h2] <;> simp [idxList, nestedOk]
  · rw [h]
    simp only [Option.getD]
    rcases parseIgnoreCase_cases (.count base n) p (parseCount base p pos).2 with h2 | h2 <;>
      rw [h2] <;> simp [idxList, nestedOk]

/-- All group indices of `a` lie in the interval from `lo` (inclusive) to
`hi` (exclusive), and the closing-order invariant holds inside `a`. -/
def InIdx (lo hi : Int) (a : ASTNode) : Prop :=
  (∀ j ∈ idxList a, lo ≤ j ∧ j < hi) ∧ nestedOk a = true

lemma inIdx_mono {lo hi lo' hi' : Int} {a : ASTNode} (h : InIdx lo hi a)
    (h1 : lo' ≤ lo) (h2 : hi ≤ hi') : InIdx lo' hi' a := by
  refine ⟨?_, h.2⟩
  intro j hj
  have := h.1 j hj
  omega

lemma idxListL_append (xs ys : List ASTNode) :
    idxListL (xs ++ ys) = idxListL xs ++ idxListL ys := by
  induction xs with
  | nil => simp [idxListL]
  | cons c cs ih => simp [idxListL, ih]

lemma nestedOkL_append (xs ys : List ASTNode) :
    nestedOkL (xs ++ ys) = (nestedOkL xs && nestedOkL ys) := by
  induction xs with
  | nil => simp [nestedOkL]
  | cons c cs ih => simp [nestedOkL, ih, Bool.and_assoc]

lemma inIdx_seq_append {lo hi : Int} {acc : List ASTNode} {ff : ASTNode}
    (h1 : InIdx lo hi (.seq acc)) (h2 : InIdx lo hi ff) :
    InIdx lo hi (.seq (acc ++ [ff])) := by
  constructor
  · intro j hj
    simp only [idxList, idxListL_append, List.mem_append] at hj
    rcases hj with hj | hj
    · exact h1.1 j (by simpa [idxList] using hj)
    · exact h2.1 j (by simpa [idxListL] using hj)
  · simp only [nestedOk, nestedOkL_append, Bool.and_eq_true]
    refine ⟨by simpa [nestedOk] using h1.2, ?_⟩
    simp [nestedOkL, h2.2]

lemma inIdx_orN {lo hi : Int} {l r : ASTNode} (h1 : InIdx lo hi l) (h2 : InIdx lo hi r) :
    InIdx lo hi (.orN l r) := by
  constructor
  · intro j hj
    simp only [idxList, List.mem_append] at hj
    rcases hj with hj | hj
    · exact h1.1 j hj
    · exact h2.1 j hj
  · simp [nestedOk, h1.2, h2.2]

lemma inIdx_suffix {lo hi : Int} {base : ASTNode} (p : List Char) (pos : Nat)
    (h : InIdx lo hi base) : InIdx lo hi (applySuffixes base p pos).1 := by
  obtain ⟨hp1, hp2⟩ := applySuffixes_pres base p pos
  exact ⟨by rw [hp1]; exact h.1, by rw [hp2]; exact h.2⟩

/-- Group-index bookkeeping of the parser: the counter never decreases, the
produced node's group indices all lie between the incoming and the outgoing
counter value, and every group's index exceeds all group indices inside its
body (since the index is assigned when the group closes, after its body was
parsed). -/
theorem parseIdxAll : ∀ fuel : Nat, ∀ (p : List Char) (pos : Nat) (cnt : Int),
    (∀ a pos1 cnt1, parseExpr fuel p pos cnt = .done a pos1 cnt1 →
      cnt ≤ cnt1 ∧ ∀ t, a = some t → InIdx cnt cnt1 t) ∧
    (∀ left lo, lo ≤ cnt → InIdx lo cnt left → ∀ a pos1 cnt1,
      parseExprLoop fuel p pos cnt left = .done a pos1 cnt1 →
      cnt ≤ cnt1 ∧ ∀ t, a = some t → InIdx lo cnt1 t) ∧
    (∀ a pos1 cnt1, parseTerm fuel p pos cnt = .done a pos1 cnt1 →
      cnt ≤ cnt1 ∧ ∀ t, a = some t → InIdx cnt cnt1 t) ∧
    (∀ acc lo, lo ≤ cnt → InIdx lo cnt (.seq acc) → ∀ a pos1 cnt1,
      parseTermLoop fuel p pos cnt acc = .done a pos1 cnt1 →
      cnt ≤ cnt1 ∧ ∀ t, a = some t → InIdx lo cnt1 t) ∧
    (∀ a pos1 cnt1, parseFactor fuel p pos cnt = .done a pos1 cnt1 →
      cnt ≤ cnt1 ∧ ∀ t, a = some t → InIdx cnt cnt1 t) ∧
    (∀ a pos1 cnt1, parseGroup fuel p pos cnt = .done a pos1 cnt1 →
      cnt ≤ cnt1 ∧ ∀ t, a = some t → InIdx cnt cnt1 t) := by
  intro fuel
  induction fuel with
  | zero =>
      intro p pos cnt
      refine ⟨?_, ?_, ?_, ?_, ?_, ?_⟩
      · intro a pos1 cnt1 h
        simp only [parseExpr] at h
        exact PRes.noConfusion h
      · intro left lo hlo hleft a pos1 cnt1 h
        simp only [parseExprLoop] at h
        exact PRes.noConfusion h
      · intro a pos1 cnt1 h
        simp only [parseTerm] at h
        exact PRes.noConfusion h
      · intro acc lo hlo hacc a pos1 cnt1 h
        simp only [parseTermLoop] at h
        exact PRes.noConfusion h
      · intro a pos1 cnt1 h
        simp only [parseFactor] at h
        exact PRes.noConfusion h
      · intro a pos1 cnt1 h
        simp only [parseGroup] at h
        exact PRes.noConfusion h
  | succ f ih =>
      intro p pos cnt
      refine ⟨?_, ?_, ?_, ?_, ?_, ?_⟩
      · intro a pos1 cnt1 h
        simp only [parseExpr] at h
        cases ht : parseTerm f p pos cnt with
        | outOfFuel =>
            rw [ht] at h
            exact PRes.noConfusion h
        | done a2 pos2 cnt2 =>
            rw [ht] at h
            have hterm := (ih p pos cnt).2.2.1 a2 pos2 cnt2 ht
            cases a2 with
            | none =>
                simp only at h
                injection h with h1 h2 h3
                subst h2 h3
                refine ⟨hterm.1, ?_⟩
                intro t htt
                rw [← h1] at htt
                exact Option.noConfusion htt
            | some left =>
                simp only at h
                have hloop := (ih p pos2 cnt2).2.1 left cnt hterm.1
                  (hterm.2 left rfl) a pos1 cnt1 h
                exact ⟨le_trans hterm.1 hloop.1, hloop.2⟩
      · intro left lo hlo hleft a pos1 cnt1 h
        simp only [parseExprLoop] at h
        split at h
        · cases ht : parseTerm f p (pos + 1) cnt with
          | outOfFuel =>
              rw [ht] at h
              exact PRes.noConfusion h
          | done a2 pos2 cnt2 =>
              rw [ht] at h
              have hterm := (ih p (pos + 1) cnt).2.2.1 a2 pos2 cnt2 ht
              cases a2 with
              | none =>
                  simp only at h
                  injection h with h1 h2 h3
                  subst h2 h3
                  refine ⟨hterm.1, ?_⟩
                  intro t htt
                  rw [← h1] at htt
                  exact Option.noConfusion htt
              | some right =>
                  simp only at h
                  have hor : InIdx lo cnt2 (.orN left right) :=
                    inIdx_orN (inIdx_mono hleft (le_refl _) hterm.1)
                      (inIdx_mono (hterm.2 right rfl) hlo (le_refl _))
                  have hloop := (ih p pos2 cnt2).2.1 (.orN left right) lo
                    (le_trans hlo hterm.1) hor a pos1 cnt1 h
                  exact ⟨le_trans hterm.1 hloop.1, hloop.2⟩
        · injection h with h1 h2 h3
          subst h2 h3
          refine ⟨le_refl _, ?_⟩
          intro t htt
          rw [← h1] at htt
          injection htt with htt2
          rw [← htt2]
          exact hleft
      · intro a pos1 cnt1 h
        simp only [parseTerm] at h
        exact (ih p pos cnt).2.2.2.1 [] cnt (le_refl _)
          ⟨by simp [idxList, idxListL], by simp [nestedOk, nestedOkL]⟩ a pos1 cnt1 h
      · intro acc lo hlo hacc a pos1 cnt1 h
        simp only [parseTermLoop] at h
        cases hf : parseFactor f p pos cnt with
        | outOfFuel =>
            rw [hf] at h
            exact PRes.noConfusion h
        | done a2 pos2 cnt2 =>
            rw [hf] at h
            have hfac := (ih p pos cnt).2.2.2.2.1 a2 pos2 cnt2 hf
            cases a2 with
            | none =>
                simp only at h
                split at h
                · injection h with h1 h2 h3
                  subst h2 h3
                  refine ⟨hfac.1, ?_⟩
                  intro t htt
                  rw [← h1] at htt
                  exact Option.noConfusion htt
                · injection h with h1 h2 h3
                  subst h2 h3
                  refine ⟨hfac.1, ?_⟩
                  intro t htt
                  rw [← h1] at htt
                  injection htt with htt2
                  rw [← htt2]
                  exact inIdx_mono hacc (le_refl _) hfac.1
            | some ff =>
                simp only at h
                have hrec := (ih p pos2 cnt2).2.2.2.1 (acc ++ [ff]) lo
                  (le_trans hlo hfac.1)
                  (inIdx_seq_append (inIdx_mono hacc (le_refl _) hfac.1)
                    (inIdx_mono (hfac.2 ff rfl) hlo (le_refl _)))
                  a pos1 cnt1 h
                exact ⟨le_trans hfac.1 hrec.1, hrec.2⟩
      · intro a pos1 cnt1 h
        simp only [parseFactor] at h
        split at h
        · exact (ih p (pos + 1) cnt).2.2.2.2.2 a pos1 cnt1 h
        · split at h
          · injection h with h1 h2 h3
            subst h2 h3
            refine ⟨le_refl _, ?_⟩
            intro t htt
            rw [← h1] at htt
            injection htt with htt2
            rw [← htt2]
            exact inIdx_suffix p (pos + 1)
              ⟨by simp [idxList], by simp [nestedOk]⟩
          · split at h
            · injection h with h1 h2 h3
              subst h2 h3
              refine ⟨le_refl _, ?_⟩
              intro t htt
              rw [← h1] at htt
              injection htt with htt2
              rw [← htt2]
              exact inIdx_suffix p (pos + 1)
                ⟨by simp [idxList], by simp [nestedOk]⟩
            · injection h with h1 h2 h3
              subst h2 h3
              refine ⟨le_refl _, ?_⟩
              intro t htt
              rw [← h1] at htt
              exact Option.noConfusion htt
      · intro a pos1 cnt1 h
        simp only [parseGroup] at h
        cases he : parseExpr f p pos cnt with
        | outOfFuel =>
            rw [he] at h
            exact PRes.noConfusion h
        | done e pos2 cnt2 =>
            rw [he] at h
            have hexp := (ih p pos cnt).1 e pos2 cnt2 he
            simp only at h
            split at h
            · injection h with h1 h2 h3
              subst h2 h3
              refine ⟨by omega, ?_⟩
              intro t htt
              rw [← h1] at htt
              injection htt with htt2
              rw [← htt2]
              refine inIdx_suffix p (pos2 + 1) ?_
              cases e with
              | none =>
                  constructor
                  · intro j hj
                    simp only [idxList, List.mem_singleton] at hj
                    subst hj
                    constructor
                    · exact hexp.1
                    · omega
                  · simp [nestedOk]
              | some t2 =>
                  have ht2 := hexp.2 t2 rfl
                  constructor
                  · intro j hj
                    simp only [idxList, List.mem_cons] at hj
                    rcases hj with hj | hj
                    · subst hj
                      exact ⟨hexp.1, by omega⟩
                    · have := ht2.1 j hj
                      omega
                  · simp only [nestedOk, Bool.and_eq_true]
                    constructor
                    · simp only [List.all_eq_true]
                      intro j hj
                      simp only [decide_eq_true_eq]
                      exact (ht2.1 j hj).2
                    · exact ht2.2
            · injection h with h1 h2 h3
              subst h2 h3
              refine ⟨hexp.1, ?_⟩
              intro t htt
              rw [← h1] at htt
              exact Option.noConfusion htt

/-- Integer value of a digit string, as `std::stoi` computes it (overflow
not modelled). -/
def digitsToInt (ds : List Char) : Int := (digitsToNat ds : Nat)

/-- The OUTPUT production of the documented grammar, read directly from the
spec's words: the remaining pattern text begins with a backslash, an `O` or
`o`, an opening brace, at least one digit, and a closing brace; its value is
the number between the braces.  Anything else is not a directive. -/
def specTrailingDirective (cs : List Char) : Option Int :=
  match cs with
  | bs :: oc :: ob :: rest =>
      if bs = '\\' ∧ (oc = 'O' ∨ oc = 'o') ∧ ob = '{' then
        let ds := rest.takeWhile Char.isDigit
        if ds.isEmpty = false ∧ (rest.drop ds.length).head? = some '}' then
          some (digitsToInt ds)
        else none
      else none
  | _ => none

lemma dropCons {p : List Char} {pos : Nat} {c : Char} {l : List Char}
    (h : p.drop pos = c :: l) : pos < p.length ∧ curC p pos = c ∧ p.drop (pos + 1) = l := by
  have hlen := congrArg List.length h
  simp only [List.length_drop, List.length_cons] at hlen
  have hpos : pos < p.length := by omega
  have hget : p[pos]? = some c := by
    rw [← List.head?_drop, h]
    rfl
  refine ⟨hpos, ?_, ?_⟩
  · simp [curC, List.getD_eq_getElem?_getD, hget]
  · have hstep : p.drop (pos + 1) = List.drop 1 (List.drop pos p) := by
      rw [List.drop_drop]
    rw [hstep, h]
    rfl

/-- The trailing output-directive block of `parsePattern` computes exactly
the documented OUTPUT production applied to the remaining pattern text,
keeping the incoming index when no well-formed directive is present. -/
lemma outputBlock_spec (p : List Char) (pos : Nat) (o : Int) :
    (outputBlock p pos o).1 = (specTrailingDirective (p.drop pos)).getD o := by
  cases hd0 : p.drop pos with
  | nil =>
      have hlen : p.length ≤ pos := List.drop_eq_nil_iff.1 hd0
      have hn1 : ¬(pos < p.length ∧ curC p pos = '\\') := fun hco => by omega
      simp [outputBlock, hn1, specTrailingDirective]
  | cons c1 l1 =>
      obtain ⟨hp1, hc1, hd1⟩ := dropCons hd0
      by_cases h1 : c1 = '\\'
      case neg =>
        have hn1 : ¬(pos < p.length ∧ curC p pos = '\\') := fun hco => h1 (hc1 ▸ hco.2)
        rcases l1 with _ | ⟨c2, l2⟩
        · simp [outputBlock, hn1, specTrailingDirective]
        · rcases l2 with _ | ⟨c3, l3⟩
          · simp [outputBlock, hn1, specTrailingDirective]
          · simp [outputBlock, hn1, specTrailingDirective, h1]
      case pos =>
        subst h1
        have hy1 : pos < p.length ∧ curC p pos = '\\' := ⟨hp1, hc1⟩
        rcases l1 with _ | ⟨c2, l2⟩
        · have hlen1 : p.length ≤ pos + 1 := List.drop_eq_nil_iff.1 hd1
          have hn2 : ¬(pos + 1 < p.length ∧
              (curC p (pos + 1) = 'O' ∨ curC p (pos + 1) = 'o')) := fun hco => by omega
          simp [outputBlock, hy1, hn2, specTrailingDirective]
        · obtain ⟨hp2, hc2, hd2⟩ := dropCons hd1
          by_cases h2 : c2 = 'O' ∨ c2 = 'o'
          case neg =>
            have hn2 : ¬(pos + 1 < p.length ∧
                (curC p (pos + 1) = 'O' ∨ curC p (pos + 1) = 'o')) := by
              intro hco
              rcases hco.2 with hcc | hcc <;> rw [hc2] at hcc <;>
                exact h2 (by rw [hcc]; simp)
            rcases l2 with _ | ⟨c3, l3⟩
            · simp [outputBlock, hy1, hn2, specTrailingDirective]
            · simp only [outputBlock]
              rw [if_pos hy1, if_neg hn2]
              rw [show specTrailingDirective ('\\' :: c2 :: c3 :: l3) =
                  (if ('\\' : Char) = '\\' ∧ (c2 = 'O' ∨ c2 = 'o') ∧ c3 = '{' then
                    (if (l3.takeWhile Char.isDigit).isEmpty = false ∧
                        (l3.drop (l3.takeWhile Char.isDigit).length).head? = some '}' then
                      some (digitsToInt (l3.takeWhile Char.isDigit))
                    else none)
                  else none) from rfl]
              rw [if_neg (show ¬(('\\' : Char) = '\\' ∧ (c2 = 'O' ∨ c2 = 'o') ∧ c3 = '{')
                from fun hco => h2 hco.2.1)]
              rfl
          case pos =>
            have hy2 : pos + 1 < p.length ∧
                (curC p (pos + 1) = 'O' ∨ curC p (pos + 1) = 'o') := by
              refine ⟨hp2, ?_⟩
              rcases h2 with h2 | h2 <;> rw [hc2, h2]
              · left; rfl
              · right; rfl
            rcases l2 with _ | ⟨c3, l3⟩
            · have hlen2 : p.length ≤ pos + 1 + 1 := List.drop_eq_nil_iff.1 hd2
              have hn3 : ¬(pos + 2 < p.length ∧ curC p (pos + 2) = '{') := fun hco => by omega
              simp [outputBlock, hy1, hy2, hn3, specTrailingDirective]
            · obtain ⟨hp3, hc3, hd3⟩ := dropCons hd2
              by_cases h3 : c3 = '{'
              case neg =>
                have hn3 : ¬(pos + 2 < p.length ∧ curC p (pos + 2) = '{') := by
                  intro hco
                  have : curC p (pos + 2) = c3 := by
                    have : pos + 1 + 1 = pos + 2 := by omega
                    rw [← this]
                    exact hc3
                  exact h3 (this ▸ hco.2)
                simp [outputBlock, hy1, hy2, hn3, specTrailingDirective, h3]
              case pos =>
                subst h3
                have hc3' : curC p (pos + 2) = '{' := by
                  have harr : pos + 1 + 1 = pos + 2 := by omega
                  rw [← harr]
                  exact hc3
                have hy3 : pos + 2 < p.length ∧ curC p (pos + 2) = '{' := by
                  refine ⟨by omega, hc3'⟩
                have hd3' : p.drop (pos + 3) = l3 := by
                  have harr : pos + 1 + 1 + 1 = pos + 3 := by omega
                  rw [← harr]
                  exact hd3
                have hds : digitsFrom p (pos + 3) = l3.takeWhile Char.isDigit := by
                  rw [digitsFrom, hd3']
                have hd4 : p.drop (pos + 3 + (l3.takeWhile Char.isDigit).length) =
                    l3.drop (l3.takeWhile Char.isDigit).length := by
                  rw [← List.drop_drop, hd3']
                cases hr : l3.drop (l3.takeWhile Char.isDigit).length with
                | nil =>
                    have hlen4 : p.length ≤ pos + 3 + (l3.takeWhile Char.isDigit).length :=
                      List.drop_eq_nil_iff.1 (hd4.trans hr)
                    simp only [outputBlock]
                    rw [if_pos hy1, if_pos hy2, if_pos hy3]
                    rw [show specTrailingDirective ('\\' :: c2 :: '{' :: l3) =
                        (if ('\\' : Char) = '\\' ∧ (c2 = 'O' ∨ c2 = 'o') ∧ ('{' : Char) = '{' then
                          (if (l3.takeWhile Char.isDigit).isEmpty = false ∧
                              (l3.drop (l3.takeWhile Char.isDigit).length).head? = some '}' then
                            some (digitsToInt (l3.takeWhile Char.isDigit))
                          else none)
                        else none) from rfl]
                    rw [if_pos (show ('\\' : Char) = '\\' ∧ (c2 = 'O' ∨ c2 = 'o') ∧
                      ('{' : Char) = '{' from ⟨rfl, h2, rfl⟩)]
                    rw [if_neg (show ¬((digitsFrom p (pos + 3)).isEmpty = false ∧
                        pos + 3 + (digitsFrom p (pos + 3)).length < p.length ∧
                        curC p (pos + 3 + (digitsFrom p (pos + 3)).length) = '}') from by
                      rw [hds]
                      intro hco
                      omega)]
                    rw [if_neg (show ¬((l3.takeWhile Char.isDigit).isEmpty = false ∧
                        (l3.drop (l3.takeWhile Char.isDigit).length).head? = some '}') from by
                      rw [hr]
                      intro hco
                      exact Option.noConfusion hco.2)]
                    rfl
                | cons c4 l4 =>
                    obtain ⟨hp4, hc4, _⟩ := dropCons (hd4.trans hr)
                    simp only [outputBlock]
                    rw [if_pos hy1, if_pos hy2, if_pos hy3]
                    rw [show specTrailingDirective ('\\' :: c2 :: '{' :: l3) =
                        (if ('\\' : Char) = '\\' ∧ (c2 = 'O' ∨ c2 = 'o') ∧ ('{' : Char) = '{' then
                          (if (l3.takeWhile Char.isDigit).isEmpty = false ∧
                              (l3.drop (l3.takeWhile Char.isDigit).length).head? = some '}' then
                            some (digitsToInt (l3.takeWhile Char.isDigit))
                          else none)
                        else none) from rfl]
                    rw [if_pos (show ('\\' : Char) = '\\' ∧ (c2 = 'O' ∨ c2 = 'o') ∧
                      ('{' : Char) = '{' from ⟨rfl, h2, rfl⟩)]
                    by_cases h4 : c4 = '}'
                    case pos =>
                        subst h4
                        cases hbe : (l3.takeWhile Char.isDigit).isEmpty with
                        | false =>
                            have hy4 : (digitsFrom p (pos + 3)).isEmpty = false ∧
                                pos + 3 + (digitsFrom p (pos + 3)).length < p.length ∧
                                curC p (pos + 3 + (digitsFrom p (pos + 3)).length) = '}' := by
                              rw [hds]
                              exact ⟨hbe, hp4, hc4⟩
                            rw [if_pos hy4,
                              if_pos (show (false = false) ∧
                                (l3.drop (l3.takeWhile Char.isDigit).length).head? = some '}' from
                                ⟨rfl, by rw [hr]; rfl⟩)]
                            rw [hds]
                            rfl
                        | true =>
                            rw [if_neg (show ¬((digitsFrom p (pos + 3)).isEmpty = false ∧
                                pos + 3 + (digitsFrom p (pos + 3)).length < p.length ∧
                                curC p (pos + 3 + (digitsFrom p (pos + 3)).length) = '}') from by
                              rw [hds]
                              intro hco
                              rw [hbe] at hco
                              exact Bool.noConfusion hco.1)]
                            rw [if_neg (show ¬((true = false) ∧
                                (l3.drop (l3.takeWhile Char.isDigit).length).head? = some '}') from by
                              intro hco
                              exact Bool.noConfusion hco.1)]
                            rfl
                    case neg =>
                        rw [if_neg (show ¬((digitsFrom p (pos + 3)).isEmpty = false ∧
                            pos + 3 + (digitsFrom p (pos + 3)).length < p.length ∧
                            curC p (pos + 3 + (digitsFrom p (pos + 3)).length) = '}') from by
                          rw [hds]
                          intro hco
                          exact h4 (hc4.symm.trans hco.2.2))]
                        rw [if_neg (show ¬((l3.takeWhile Char.isDigit).isEmpty = false ∧
                            (l3.drop (l3.takeWhile Char.isDigit).length).head? = some '}') from by
                          rw [hr]
                          intro hco
                          have := hco.2
                          simp only [List.head?] at this
                          injection this with hthis
                          exact h4 hthis)]
                        rfl

/-! ## The claims -/

/-- C1: group indices are assigned in closing order — every capturing group
carries an index strictly greater than every group index inside its body
(on any compiled AST, at any starting counter), and for the pattern of an
inner group spanning a and an outer group spanning ab, the inner group gets
index 1 and the outer group index 2 when the counter starts at 1. -/
theorem claim_C1 :
    (∀ fuel p cnt a o c2, parsePattern fuel p cnt = PPRes.done (some a) o c2 →
      nestedOk a = true) ∧
    parsePattern 50 ['(', '(', 'a', ')', 'b', ')'] 1 =
      .done (some (.seq [.group (some (.seq
        [.group (some (.seq [.char 'a'])) 1, .char 'b'])) 2])) 0 3 := by
  constructor
  · intro fuel p cnt a o c2 h
    unfold parsePattern at h
    cases he : parseExpr fuel p 0 cnt with
    | outOfFuel => rw [he] at h; exact PPRes.noConfusion h
    | done a1 pos1 c1 =>
        rw [he] at h
        simp only at h
        injection h with h1 h2 h3
        exact (((parseIdxAll fuel p 0 cnt).1 a1 pos1 c1 he).2 a h1).2
  · rfl

/-- C2 counterexample: the group counter is a static that is never reset, so
a second compilation of the same pattern (counter now 2 instead of 1) yields
a different AST, a different capture table on the same text, and a different
output-group extraction. -/
theorem claim_C2_counterexample :
    parsePattern 50 ['(', 'a', ')', '\\', 'O', '{', '1', '}'] 1 =
      .done (some (.seq [.group (some (.seq [.char 'a'])) 1])) 1 2 ∧
    parsePattern 50 ['(', 'a', ')', '\\', 'O', '{', '1', '}'] 2 =
      .done (some (.seq [.group (some (.seq [.char 'a'])) 2])) 1 3 ∧
    findMatchFrom 50 (.seq [.group (some (.seq [.char 'a'])) 1]) ['a'] 0 =
      .found 0 [some ⟨0, 1, true⟩, some ⟨0, 1, true⟩] ∧
    findMatchFrom 50 (.seq [.group (some (.seq [.char 'a'])) 2]) ['a'] 0 =
      .found 0 [some ⟨0, 1, true⟩, none, some ⟨0, 1, true⟩] ∧
    ([some ⟨0, 1, true⟩, some ⟨0, 1, true⟩] : List (Option CaptureGroup)) ≠
      [some ⟨0, 1, true⟩, none, some ⟨0, 1, true⟩] ∧
    extractOutput ['a'] [some ⟨0, 1, true⟩, some ⟨0, 1, true⟩] 1 = some ['a'] ∧
    extractOutput ['a'] [some ⟨0, 1, true⟩, none, some ⟨0, 1, true⟩] 1 = none :=
  ⟨rfl, rfl, rfl, rfl, by decide, rfl, rfl⟩

/-- C2 (amended): recompilation is only idempotent for group-free patterns —
if a compilation at counter cnt produces a group-free AST, then compiling
the same pattern at any other counter produces the identical AST and
output-group index. -/
theorem claim_C2 (fuel : Nat) (p : List Char) (cnt cnt' : Int) (a : ASTNode)
    (o c2 : Int) (h : parsePattern fuel p cnt = .done (some a) o c2)
    (hg : groupFree a = true) :
    ∃ c2', parsePattern fuel p cnt' = .done (some a) o c2' :=
  ⟨cnt' + (c2 - cnt), parsePattern_groupFree_shift fuel p cnt cnt' a o c2 h hg⟩

/-- C2 witness: the group-free pattern ab compiles to the same AST at
counter 1 and at counter 5. -/
theorem claim_C2_witness :
    ∃ c2', parsePattern 50 ['a', 'b'] 5 =
      .done (some (.seq [.char 'a', .char 'b'])) 0 c2' :=
  claim_C2 50 ['a', 'b'] 1 5 (.seq [.char 'a', .char 'b']) 0 1 rfl rfl

/-- C3 counterexample: a quantifier with no digits does not fail the whole
compilation — the empty-brace suffix is silently consumed and the pattern
compiles; likewise a trailing unmatched opening parenthesis after one good
factor still compiles. -/
theorem claim_C3_counterexample :
    parsePattern 50 ['a', '{', '}'] 1 = .done (some (.seq [.char 'a'])) 0 1 ∧
    parsePattern 50 ['a', '('] 1 = .done (some (.seq [.char 'a'])) 0 1 :=
  ⟨rfl, rfl⟩

/-- C3 (amended): a leading unmatched opening parenthesis, a dangling
alternation operator and an empty pattern do fail the whole compilation with
a null AST (and no crash), but a digitless quantifier and a trailing
unmatched opening parenthesis are consumed silently and the compilation
succeeds. -/
theorem claim_C3 :
    parsePattern 50 ['(', 'a'] 1 = .done none 0 1 ∧
    parsePattern 50 ['a', '+'] 1 = .done none 0 1 ∧
    parsePattern 50 [] 1 = .done none 0 1 ∧
    parsePattern 50 ['a', '{', '}'] 1 = .done (some (.seq [.char 'a'])) 0 1 ∧
    parsePattern 50 ['a', '('] 1 = .done (some (.seq [.char 'a'])) 0 1 :=
  ⟨rfl, rfl, rfl, rfl, rfl⟩

/-- C4 counterexample: a zero-count quantifier node succeeds without
advancing the position, and the empty-group pattern compiles to a group
node with a null body whose match call dereferences a null pointer. -/
theorem claim_C4_counterexample :
    parsePattern 50 ['a', '{', '0', '}'] 1 =
      .done (some (.seq [.count (.char 'a') 0])) 0 1 ∧
    matchNode 10 (.seq [.count (.char 'a') 0]) ⟨['b'], 0, [none], false⟩ =
      .ok true ⟨['b'], 0, [none], false⟩ ∧
    parsePattern 50 ['(', ')'] 1 = .done (some (.seq [.group none 1])) 0 2 ∧
    matchNode 10 (.seq [.group none 1]) ⟨['b'], 0, [none], false⟩ = .crash :=
  ⟨rfl, rfl, rfl, rfl⟩

/-- C4 (amended): whenever a match call returns (rather than hanging or
crashing), the input and the case flag are preserved, success never moves
the position backwards (though it may leave it unchanged), and failure
restores the position exactly to its value at entry. -/
theorem claim_C4 (fuel : Nat) (a : ASTNode) (ctx : MatchContext) (b : Bool)
    (ctx1 : MatchContext) (h : matchNode fuel a ctx = .ok b ctx1) :
    ctx1.input = ctx.input ∧ ctx1.ignoreCase = ctx.ignoreCase ∧
    (b = true → ctx.position ≤ ctx1.position) ∧
    (b = false → ctx1.position = ctx.position) := by
  have m := (matchInvAll fuel).1 a ctx b ctx1 h
  exact ⟨m.1, m.2.1, fun hb => (m.2.2.1 hb).1, m.2.2.2⟩

/-- C4 witness: the position contract at a concrete successful
single-character match. -/
theorem claim_C4_witness :
    (MatchContext.mk ['a'] 1 [none] false).input =
      (MatchContext.mk ['a'] 0 [none] false).input ∧
    (MatchContext.mk ['a'] 1 [none] false).ignoreCase =
      (MatchContext.mk ['a'] 0 [none] false).ignoreCase ∧
    (true = true → (MatchContext.mk ['a'] 0 [none] false).position ≤
      (MatchContext.mk ['a'] 1 [none] false).position) ∧
    (true = false → (MatchContext.mk ['a'] 1 [none] false).position =
      (MatchContext.mk ['a'] 0 [none] false).position) :=
  claim_C4 5 (.char 'a') ⟨['a'], 0, [none], false⟩ true ⟨['a'], 1, [none], false⟩ rfl

/-- C5: the search driver tries start offsets in ascending order from 0 with
a fresh match state per offset; a found result is the leftmost succeeding
offset, with slot 0 of the returned table set to the whole-match span when
the AST did not write it, and a no-match report means every offset up to the
text length failed. -/
theorem claim_C5 (fuel : Nat) (ast : ASTNode) (text : List Char) :
    (∀ s caps, findMatchFrom fuel ast text 0 = .found s caps →
      s ≤ text.length ∧
      (∃ ctx1, matchNode fuel ast ⟨text, s, [none], false⟩ = .ok true ctx1 ∧
        caps = fixSlotZero ctx1.captures s ctx1.position) ∧
      (∀ t, t < s → ∃ cf, matchNode fuel ast ⟨text, t, [none], false⟩ = .ok false cf)) ∧
    (findMatchFrom fuel ast text 0 = .noMatch →
      ∀ t, t ≤ text.length →
        ∃ cf, matchNode fuel ast ⟨text, t, [none], false⟩ = .ok false cf) := by
  constructor
  · intro s caps h
    have r := findMatchFrom_found fuel ast text 0 s caps h
    exact ⟨r.2.1, r.2.2.1, fun t ht => r.2.2.2 t (Nat.zero_le t) ht⟩
  · intro h t ht
    exact findMatchFrom_noMatch fuel ast text 0 h t (Nat.zero_le t) ht

/-- C5 witness: searching for the character b in the two-character text ab
finds it at offset 1, slot 0 holds the span from 1 to 2, and offset 0
failed first. -/
theorem claim_C5_witness :
    (1 : Nat) ≤ (['a', 'b'] : List Char).length ∧
    (∃ ctx1, matchNode 50 (.char 'b') ⟨['a', 'b'], 1, [none], false⟩ = .ok true ctx1 ∧
      [some ⟨1, 2, true⟩] = fixSlotZero ctx1.captures 1 ctx1.position) ∧
    (∀ t, t < 1 → ∃ cf, matchNode 50 (.char 'b') ⟨['a', 'b'], t, [none], false⟩ =
      .ok false cf) :=
  (claim_C5 50 (.char 'b') ['a', 'b']).1 1 [some ⟨1, 2, true⟩] rfl

/-- C6: a failing sequence restores only the scan position (general clause),
and capture writes of earlier successful children survive — concretely, the
left alternative of the compiled alternation writes capture slot 1 before
failing, and the final table of the successful right-branch match still
shows that stale slot. -/
theorem claim_C6 :
    (∀ fuel cs ctx saved ctx1, seqLoop fuel cs ctx saved = .ok false ctx1 →
      ctx1.position = saved) ∧
    parsePattern 50 ['(', 'a', ')', 'b', '+', 'a', 'x'] 1 =
      .done (some (.orN (.seq [.group (some (.seq [.char 'a'])) 1, .char 'b'])
        (.seq [.char 'a', .char 'x']))) 0 2 ∧
    matchNode 50 (.seq [.group (some (.seq [.char 'a'])) 1, .char 'b'])
      ⟨['a', 'x'], 0, [none], false⟩ =
      .ok false ⟨['a', 'x'], 0, [none, some ⟨0, 1, true⟩], false⟩ ∧
    findMatchFrom 50 (.orN (.seq [.group (some (.seq [.char 'a'])) 1, .char 'b'])
      (.seq [.char 'a', .char 'x'])) ['a', 'x'] 0 =
      .found 0 [some ⟨0, 2, true⟩, some ⟨0, 1, true⟩] := by
  refine ⟨?_, rfl, rfl, rfl⟩
  intro fuel cs ctx saved ctx1 h
  exact ((matchInvAll fuel).2.1 cs ctx saved false ctx1 h).2.2.2 rfl

/-- C7: alternation is left-biased and committing — a locally successful
left operand is the whole result, and on left failure the right operand is
run from the restored checkpoint and decides the result; concretely the
alternation of a and b on the text b fails the left branch first and then
matches via the right branch at offset 0. -/
theorem claim_C7 :
    (∀ fuel l r ctx ctx1, matchNode fuel l ctx = .ok true ctx1 →
      matchNode (fuel + 1) (.orN l r) ctx = .ok true ctx1) ∧
    (∀ fuel l r ctx cf, matchNode fuel l ctx = .ok false cf →
      matchNode (fuel + 1) (.orN l r) ctx =
        matchNode fuel r { cf with position := ctx.position }) ∧
    parsePattern 50 ['a', '+', 'b'] 1 =
      .done (some (.orN (.seq [.char 'a']) (.seq [.char 'b']))) 0 1 ∧
    matchNode 50 (.seq [.char 'a']) ⟨['b'], 0, [none], false⟩ =
      .ok false ⟨['b'], 0, [none], false⟩ ∧
    findMatchFrom 50 (.orN (.seq [.char 'a']) (.seq [.char 'b'])) ['b'] 0 =
      .found 0 [some ⟨0, 1, true⟩] := by
  refine ⟨?_, ?_, rfl, rfl, rfl⟩
  · intro fuel l r ctx ctx1 h
    simp only [matchNode, h]
  · intro fuel l r ctx cf h
    simp only [matchNode, h]
    cases hr : matchNode fuel r { cf with position := ctx.position } with
    | ok b c => cases b <;> rfl
    | crash => rfl
    | outOfFuel => rfl

/-- C8: the one-or-more repetition greedily chains successful runs of its
body until the body fails, succeeds exactly when at least one repetition
succeeded, and ends at the position after the last successful repetition;
concretely one-or-more of a matches aaa at offset 0 of the text aaab. -/
theorem claim_C8 :
    (∀ e c k cend cf, StarChain e c k cend → Matches e cend false cf →
      Matches (.star e) c (decide (1 ≤ k)) { cf with position := cend.position }) ∧
    parsePattern 50 ['a', '*'] 1 = .done (some (.seq [.star (.char 'a')])) 0 1 ∧
    findMatchFrom 50 (.seq [.star (.char 'a')]) ['a', 'a', 'a', 'b'] 0 =
      .found 0 [some ⟨0, 3, true⟩] :=
  ⟨fun _ _ _ _ _ hch hf => star_greedy hch hf, rfl, rfl⟩

/-- C8 witness: a one-repetition chain of the character a on the
one-character text a gives a successful star match ending at position 1. -/
theorem claim_C8_witness :
    Matches (.star (.char 'a')) ⟨['a'], 0, [none], false⟩ true
      ⟨['a'], 1, [none], false⟩ :=
  claim_C8.1 (.char 'a') ⟨['a'], 0, [none], false⟩ 1 ⟨['a'], 1, [none], false⟩
    ⟨['a'], 1, [none], false⟩
    (StarChain.succ ⟨5, rfl⟩ (StarChain.zero _))
    ⟨5, rfl⟩

/-- C9: whatever the expression parse returns, the compiled output-group
index is the value of a fully well-formed trailing output directive on the
remaining pattern text, read off the documented grammar, and the default 0
otherwise; a malformed trailing directive keeps the default and does not
change the compilation result. -/
theorem claim_C9 (fuel : Nat) (p : List Char) (cnt : Int) (a : Option ASTNode)
    (pos1 : Nat) (cnt1 : Int)
    (h : parseExpr fuel p 0 cnt = .done a pos1 cnt1) :
    parsePattern fuel p cnt =
      .done a ((specTrailingDirective (p.drop pos1)).getD 0) cnt1 := by
  unfold parsePattern
  rw [h]
  show PPRes.done a (outputBlock p pos1 0).1 cnt1 = _
  rw [outputBlock_spec]

/-- C9 witness: the pattern a followed by a well-formed output directive
naming group 2 compiles with output-group index 2. -/
theorem claim_C9_witness :
    parsePattern 50 ['a', '\\', 'O', '{', '2', '}'] 1 =
      .done (some (.seq [.char 'a'])) 2 1 :=
  claim_C9 50 ['a', '\\', 'O', '{', '2', '}'] 1 (some (.seq [.char 'a'])) 1 1 rfl

/-- C10 counterexample: the compiler accepts a parenthesized zero-count atom
under a star, and on that AST the matcher never returns — whatever the fuel,
the run is cut off, because the star body succeeds without consuming. -/
theorem claim_C10_counterexample :
    parsePattern 50 ['(', 'a', '{', '0', '}', ')', '*'] 1 =
      .done (some (.seq [.star loopyStarBody])) 0 2 ∧
    ¬ ∃ f b ctx1, matchNode f (.seq [.star loopyStarBody])
      ⟨['a'], 0, [none], false⟩ = .ok b ctx1 := by
  refine ⟨rfl, ?_⟩
  rintro ⟨f, b, ctx1, h⟩
  rw [seqStar_loopy_diverges] at h
  exact MRes.noConfusion h

/-- C10 (amended): on every AST all of whose one-or-more repetition bodies
are guaranteed to consume input on success, every match call finishes in
finitely many steps — some fuel makes the matcher deliver a final outcome,
which is a boolean result or, when a group body is null, the crash; when
additionally every group body is present, the outcome is always a boolean
result. -/
theorem claim_C10 (a : ASTNode) (ctx : MatchContext) :
    (starsConsume a = true → ∃ fuel, matchNode fuel a ctx ≠ MRes.outOfFuel) ∧
    (goodStars a = true → ∃ fuel b ctx1, matchNode fuel a ctx = .ok b ctx1) :=
  ⟨fun hgood => matchDelivers a hgood ctx, fun hgood => matchComplete a hgood ctx⟩

/-- C10 witness: the compiled AST of the empty-group pattern has no
one-or-more node, so its match call delivers (here: the null-body crash),
and the single-character AST satisfies both conditions and returns a
boolean result. -/
theorem claim_C10_witness :
    (∃ fuel, matchNode fuel (.seq [.group none 1]) ⟨['a'], 0, [none], false⟩ ≠
      MRes.outOfFuel) ∧
    (∃ fuel b ctx1, matchNode fuel (.char 'a') ⟨['a'], 0, [none], false⟩ =
      .ok b ctx1) :=
  ⟨(claim_C10 (.seq [.group none 1]) ⟨['a'], 0, [none], false⟩).1 rfl,
   (claim_C10 (.char 'a') ⟨['a'], 0, [none], false⟩).2 rfl⟩
